import Mathlib

/-!
Shallow embedding of the in-memory relational store found in the repository
(the `RelationalDb` row store with unique-index maintenance, the metadata
driven `Crud` layer with foreign-key validation and recursive cascade
delete, the `AdvancedCrudManager` dependent-record discovery, and the
equality-join `View` engine), together with theorems settling the frozen
claims about it.

Conventions of the embedding:
* JavaScript values stored in rows are modelled by `JsVal`
  (`null`, integers, strings); a missing object property (JS `undefined`)
  is modelled by `Option JsVal` being `none` at lookup sites.
* JavaScript exceptions are modelled with `Except String`.
* The unbounded recursion of the cascade delete is modelled with explicit
  fuel (`Nat`); `none` means the fuel ran out, i.e. the recursion did not
  complete within that depth.
* JS `Map` objects used as key sets are modelled as `List String` with
  membership semantics; JS `Array.prototype.join` renders `null` and
  `undefined` as the empty string, which `keyPart` reproduces.
-/

inductive JsVal where
  | null : JsVal
  | int : Int → JsVal
  | str : String → JsVal
deriving DecidableEq, Repr

/-- How a value is rendered inside `join('::')` when building a unique key:
JS renders `null` and `undefined` as the empty string there. -/
def keyPart : Option JsVal → String
  | none => ""
  | some JsVal.null => ""
  | some (JsVal.int n) => toString n
  | some (JsVal.str s) => s

/-- `${v}` template rendering (used for visited-set keys): here `null`
renders as the string "null". -/
def jsTemplate : JsVal → String
  | JsVal.null => "null"
  | JsVal.int n => toString n
  | JsVal.str s => s

/-- State of one table's row collection (`class Rows` plus the schema data
of its owning `Table`): ordered column names, declared unique constraints,
the live row arrays, the identity counter and one key set per unique
constraint (`uniqueMaps`). -/
structure RowsState where
  columns : List String
  unique : List (List String)
  data : List (List JsVal)
  nextId : Int
  uniqueMaps : List (List String)
deriving DecidableEq, Repr

namespace RowsStore

/-- `Rows.prototype._getUniqueKey`: map each constraint column to the row's
value at that column's index and join with "::". A column missing from the
schema reads as JS `undefined` (here `none`). -/
def uniqueKey (cols : List String) (u : List String) (row : List JsVal) : String :=
  String.intercalate "::" (u.map (fun c =>
    keyPart ((cols.indexOf? c).map (fun i => row.getD i JsVal.null))))

/-- The field-copy loop of `Rows.prototype.add`: start from an all-null
array and write every supplied property whose name is a schema column. -/
def buildRow (cols : List String) (rowData : List (String × JsVal)) : List JsVal :=
  rowData.foldl (fun arr kv =>
      match cols.indexOf? kv.1 with
      | some idx => arr.set idx kv.2
      | none => arr)
    (cols.map (fun _ => JsVal.null))

/-- The unique-constraint loop of `Rows.prototype.add`. It walks the
constraints in order; each non-colliding key is inserted into that
constraint's map before the next constraint is examined, so when a later
constraint collides (returning `some` error) the earlier insertions are
kept — exactly as in the source, where the `throw` happens after the
earlier `set` calls. -/
def addMaps (cols : List String) (arr : List JsVal) :
    List (List String) → List (List String) → Option String × List (List String)
  | [], ms => (none, ms)
  | _ :: _, [] => (none, [])
  | u :: us, m :: ms =>
    let key := uniqueKey cols u arr
    if m.contains key then
      (some ("Unique constraint violation on " ++ String.intercalate ", " u), m :: ms)
    else
      let r := addMaps cols arr us ms
      (r.1, (key :: m) :: r.2)

/-- `Rows.prototype.add`: build the prospective row, overwrite index 0 with
the identity counter (incrementing it before the unique checks), then run
the unique-constraint loop; on success the row is appended and the new
identity returned. On failure the row is not inserted but the counter stays
incremented and the partial map insertions stay. -/
def add (s : RowsState) (rowData : List (String × JsVal)) :
    Except String Int × RowsState :=
  let arr := (buildRow s.columns rowData).set 0 (JsVal.int s.nextId)
  let assigned := s.nextId
  let r := addMaps s.columns arr s.unique s.uniqueMaps
  match r.1 with
  | some e => (Except.error e, { s with nextId := s.nextId + 1, uniqueMaps := r.2 })
  | none =>
      (Except.ok assigned,
        { s with nextId := s.nextId + 1, uniqueMaps := r.2, data := s.data ++ [arr] })

/-- `Rows.prototype.get`: first row whose index-0 value is the identity
(strict `===` comparison, so the identity argument is an arbitrary value). -/
def get (s : RowsState) (id : JsVal) : Option (List JsVal) :=
  s.data.find? (fun r => r.getD 0 JsVal.null = id)

/-- The field-merge loop of `Rows.prototype.update`: only supplied columns
with index strictly greater than 0 are overwritten (the identity column is
silently excluded). -/
def mergeRow (cols : List String) (oldRow : List JsVal)
    (updates : List (String × JsVal)) : List JsVal :=
  updates.foldl (fun arr kv =>
      match cols.indexOf? kv.1 with
      | some idx => if 0 < idx then arr.set idx kv.2 else arr
      | none => arr)
    oldRow

/-- The unique-constraint loop of `Rows.prototype.update`: for each
constraint compare the old and new key; a changed key already present in
that constraint's map aborts (returning `some` error) while keeping the
re-keying already performed for earlier constraints, exactly as the source
does (its rollback restores only `row.data`, not the maps). -/
def updMaps (cols : List String) (oldRow newRow : List JsVal) :
    List (List String) → List (List String) → Option String × List (List String)
  | [], ms => (none, ms)
  | _ :: _, [] => (none, [])
  | u :: us, m :: ms =>
    let oldKey := uniqueKey cols u oldRow
    let newKey := uniqueKey cols u newRow
    if newKey ≠ oldKey ∧ m.contains newKey then
      (some ("Unique constraint violation on " ++ String.intercalate ", " u), m :: ms)
    else
      let m2 := if newKey ≠ oldKey then newKey :: m.erase oldKey else m
      let r := updMaps cols oldRow newRow us ms
      (r.1, m2 :: r.2)

/-- `Rows.prototype.update`: no-op if the identity is absent; otherwise
merge the supplied fields, re-run every unique constraint, and either
commit the merged row or abort restoring the row's prior values (while the
map re-keying already performed for earlier constraints stays, as in the
source). -/
def update (s : RowsState) (id : JsVal) (updates : List (String × JsVal)) :
    Except String Unit × RowsState :=
  match s.data.findIdx? (fun r => r.getD 0 JsVal.null = id) with
  | none => (Except.ok (), s)
  | some ridx =>
    let oldRow := s.data.getD ridx []
    let newRow := mergeRow s.columns oldRow updates
    let r := updMaps s.columns oldRow newRow s.unique s.uniqueMaps
    match r.1 with
    | some e => (Except.error e, { s with uniqueMaps := r.2 })
    | none => (Except.ok (), { s with uniqueMaps := r.2, data := s.data.set ridx newRow })

/-- The key-removal loop of `Rows.prototype.delete`. -/
def delMaps (cols : List String) (row : List JsVal) :
    List (List String) → List (List String) → List (List String)
  | [], ms => ms
  | _ :: _, [] => []
  | u :: us, m :: ms => m.erase (uniqueKey cols u row) :: delMaps cols row us ms

/-- `Rows.prototype.delete`: no-op if absent; otherwise remove the row's
keys from every unique map and filter the row out of the collection. -/
def delete (s : RowsState) (id : JsVal) : RowsState :=
  match get s id with
  | none => s
  | some row =>
    { s with
      uniqueMaps := delMaps s.columns row s.unique s.uniqueMaps,
      data := s.data.filter (fun r => ¬ r.getD 0 JsVal.null = id) }

/-- One conjunct of `Rows.prototype.find`'s predicate: a row is rejected
only when the filter key is a schema column and the stored value differs
(a filter key that is not a column constrains nothing). -/
def matchesFilter (cols : List String) (filter : List (String × JsVal))
    (row : List JsVal) : Bool :=
  filter.all (fun kv =>
    match cols.indexOf? kv.1 with
    | some idx => row.getD idx JsVal.null = kv.2
    | none => true)

/-- `Rows.prototype.find`: all rows matching the filter, in storage order. -/
def find (s : RowsState) (filter : List (String × JsVal)) : List (List JsVal) :=
  s.data.filter (matchesFilter s.columns filter)

end RowsStore

/-- JS `String.prototype.startsWith`, computed on the character lists so
that it evaluates by reduction. -/
def jsStartsWith (s p : String) : Bool :=
  p.data.isPrefixOf s.data

/-- Table-name normalization shared by `Tables` and the `Crud` layer:
prepend "tbl" unless already present (`name.startsWith('tbl')`). -/
def normTbl (name : String) : String :=
  if jsStartsWith name "tbl" then name else "tbl" ++ name

/-- The `Tables` registry of the `Database`: normalized name → table state. -/
abbrev Database := List (String × RowsState)

namespace Database

/-- `Tables.prototype.getTable` (lookup under the normalized name). -/
def getTable (db : Database) (name : String) : Option RowsState :=
  List.lookup (normTbl name) db

/-- Replace the state stored under a (normalized) table name. -/
def setTable (db : Database) (name : String) (tb : RowsState) : Database :=
  db.map
    (fun p => if p.1 = normTbl name then (p.1, tb) else p)

/-- `Database.prototype.read` followed by `Rowset.prototype.toArray`: the
matching row arrays. Reading a table absent from the catalog is the JS
`TypeError` crash, modelled as an error. -/
def read (db : Database) (t : String) (filter : List (String × JsVal)) :
    Except String (List (List JsVal)) :=
  match getTable db t with
  | none => Except.error "TypeError: cannot read rows of undefined table"
  | some tb => Except.ok (RowsStore.find tb filter)

/-- `Database.prototype.create`. -/
def create (db : Database) (t : String) (rowData : List (String × JsVal)) :
    Except String Int × Database :=
  match getTable db t with
  | none => (Except.error "TypeError: cannot create in undefined table", db)
  | some tb =>
    let r := RowsStore.add tb rowData
    (r.1, setTable db t r.2)

/-- `Database.prototype.update`. -/
def update (db : Database) (t : String) (id : JsVal)
    (updates : List (String × JsVal)) : Except String Unit × Database :=
  match getTable db t with
  | none => (Except.error "TypeError: cannot update undefined table", db)
  | some tb =>
    let r := RowsStore.update tb id updates
    (r.1, setTable db t r.2)

/-- `Database.prototype.delete`. -/
def delete (db : Database) (t : String) (id : JsVal) :
    Except String Unit × Database :=
  match getTable db t with
  | none => (Except.error "TypeError: cannot delete from undefined table", db)
  | some tb => (Except.ok (), setTable db t (RowsStore.delete tb id))

end Database

/-- One table's integrity metadata as registered through `Crud.define`
(only the parts the claims exercise: primary key name and the
foreign-key column → target-table map). -/
structure Meta where
  primaryKey : Option String := none
  foreignKeys : List (String × String) := []
deriving DecidableEq, Repr

/-- The `Crud` layer's metadata registry: normalized table name → meta. -/
abbrev Metadata := List (String × Meta)

namespace Crud

/-- `Crud.prototype.define`: normalize the name and store the metadata
under it (JS object assignment: overwrite in place if the key exists,
append otherwise); no validation of any kind is performed. -/
def define (md : Metadata) (tableName : String) (meta : Meta) : Metadata :=
  let t := normTbl tableName
  if (List.lookup t md).isSome then
    md.map (fun p => if p.1 = t then (p.1, meta) else p)
  else md ++ [(t, meta)]

/-- `Crud.prototype._pkOf`: the registered primary key or "id". -/
def pkOf (md : Metadata) (tableName : String) : String :=
  match List.lookup (normTbl tableName) md with
  | some meta => meta.primaryKey.getD "id"
  | none => "id"

/-- The foreign-key loop of `Crud.prototype.create`: a non-null supplied
value for a declared foreign-key column must match some row of the target
table on its primary key; `null` and absent values are skipped
(`val == null`). -/
def validateFks (md : Metadata) (db : Database) (obj : List (String × JsVal)) :
    List (String × String) → Except String Unit
  | [] => Except.ok ()
  | (col, fkTable) :: rest =>
    match List.lookup col obj with
    | none => validateFks md db obj rest
    | some JsVal.null => validateFks md db obj rest
    | some v =>
      match Database.read db fkTable [(pkOf md fkTable, v)] with
      | Except.error e => Except.error e
      | Except.ok rows =>
        if rows.isEmpty then
          Except.error ("Foreign key constraint failed: " ++ fkTable ++ "." ++ col)
        else validateFks md db obj rest

/-- The declared foreign keys of a table
(`this.metadata[tableName] || {}` followed by `meta.foreignKeys`). -/
def fksOf (md : Metadata) (tableName : String) : List (String × String) :=
  match List.lookup (normTbl tableName) md with
  | some meta => meta.foreignKeys
  | none => []

/-- `Crud.prototype.create`: validate every declared foreign key of the
table against the current store, then delegate to `Database.create`;
a validation failure happens before any storage mutation. -/
def create (md : Metadata) (db : Database) (tableName : String)
    (obj : List (String × JsVal)) : Except String Int × Database :=
  let t := normTbl tableName
  match validateFks md db obj (fksOf md t) with
  | Except.error e => (Except.error e, db)
  | Except.ok _ => Database.create db t obj

/-- JS truthiness of a stored value (`if (updates[pk])`). -/
def truthy : Option JsVal → Bool
  | none => false
  | some JsVal.null => false
  | some (JsVal.int n) => ¬ n = 0
  | some (JsVal.str s) => ¬ s = ""

/-- `Crud.prototype.update`: drop the primary-key property when truthy and
delegate to `Database.update`. No foreign-key validation is performed on
update in this layer. -/
def update (md : Metadata) (db : Database) (tableName : String) (id : JsVal)
    (updates : List (String × JsVal)) : Except String Unit × Database :=
  let pk := pkOf md tableName
  let updates2 :=
    if truthy (List.lookup pk updates) then updates.filter (fun kv => ¬ kv.1 = pk)
    else updates
  Database.update db tableName id updates2

/-- The ordered list of `(table, id)` pairs passed to `db.delete` during a
cascade, used to state ordering properties. -/
abbrev Log := List (String × JsVal)

/-- Outcome of a (possibly recursive) cascade step: `none` when the fuel
ran out, otherwise the JS outcome (exception or final state plus the log
of performed `db.delete` calls). -/
abbrev DelRes := Option (Except String (Database × Log))

/-- Sequencing of two cascade steps, propagating fuel exhaustion and
exceptions and concatenating the logs. -/
def thenDel (x : DelRes) (f : Database → DelRes) : DelRes :=
  match x with
  | none => none
  | some (Except.error e) => some (Except.error e)
  | some (Except.ok (db, log1)) =>
    match f db with
    | none => none
    | some (Except.error e) => some (Except.error e)
    | some (Except.ok (db2, log2)) => some (Except.ok (db2, log1 ++ log2))

/-- The `for (let r of rows) this.delete(t, r[0])` loop of
`Crud.prototype.delete`: recursively cascade-delete each child id in turn,
threading the database. `rec` is the recursive call at the remaining
fuel. -/
def delIds (rec : Database → String → JsVal → DelRes) (tname : String) :
    Database → List JsVal → DelRes
  | db, [] => some (Except.ok (db, []))
  | db, cid :: rest =>
    thenDel (rec db tname cid) (fun db2 => delIds rec tname db2 rest)

/-- The `for (let col in childMeta.foreignKeys)` loop of
`Crud.prototype.delete`: for each foreign-key column of `tname` whose
target is the table being deleted from, read all rows referencing the
deleted id and cascade into each. -/
def delFks (rec : Database → String → JsVal → DelRes) (t : String) (i : JsVal)
    (tname : String) : Database → List (String × String) → DelRes
  | db, [] => some (Except.ok (db, []))
  | db, (col, target) :: rest =>
    if target = t then
      match Database.read db tname [(col, i)] with
      | Except.error e => some (Except.error e)
      | Except.ok rows =>
        thenDel (delIds rec tname db (rows.map (fun r => r.getD 0 JsVal.null)))
          (fun db2 => delFks rec t i tname db2 rest)
    else delFks rec t i tname db rest

/-- The `for (let t in this.metadata)` loop of `Crud.prototype.delete`. -/
def delTables (rec : Database → String → JsVal → DelRes) (t : String)
    (i : JsVal) : Database → List (String × Meta) → DelRes
  | db, [] => some (Except.ok (db, []))
  | db, (tname, meta) :: rest =>
    thenDel (delFks rec t i tname db meta.foreignKeys)
      (fun db2 => delTables rec t i db2 rest)

/-- `Crud.prototype.delete` with explicit fuel bounding the recursion
depth: first recursively delete, for every registered table, the rows
whose declared foreign-key columns reference the deleted id, then delete
the row itself. The source has no visited set: each recursive call is a
full `this.delete(t, r[0])`. -/
def deleteF (md : Metadata) : Nat → Database → String → JsVal → DelRes
  | 0, _, _, _ => none
  | Nat.succ n, db, tableName, i =>
    let t := normTbl tableName
    thenDel (delTables (deleteF md n) t i db md)
      (fun db2 =>
        match Database.delete db2 t i with
        | (Except.error e, _) => some (Except.error e)
        | (Except.ok _, db3) => some (Except.ok (db3, [(t, i)])))

end Crud

/-! ## AdvancedCrudManager dependent-record discovery

Embedding of `AdvancedCrudManager._getDependentRecordsRecursive`: the
visited-set traversal of the foreign-key graph that collects every record
transitively referencing the deleted one. The dependents accumulator
models the JS `Map table → Set ids` (insertion-ordered, duplicate-free);
the mutable aliasing of the JS `Set` objects inside that map is
approximated by re-reading the map entry where the source re-reads it,
which leaves the traversal structure and the visited set — the parts the
termination claim rests on — exact. -/

namespace Adv

/-- JS `Map table → Set ids`, as an insertion-ordered association list of
duplicate-free id lists. -/
abbrev DepMap := List (String × List JsVal)

/-- `Set.prototype.add`: append if not already present. -/
def addId (ids : List JsVal) (v : JsVal) : List JsVal :=
  if ids.contains v then ids else ids ++ [v]

/-- `Map.prototype.set`: overwrite in place or append. -/
def depSet (m : DepMap) (t : String) (ids : List JsVal) : DepMap :=
  if (m.lookup t).isSome then m.map (fun p => if p.1 = t then (p.1, ids) else p)
  else m ++ [(t, ids)]

/-- The grandchild merge: for every table of the returned map, union its
ids into the accumulated map (`dependents.get(table) || new Set()`,
add each, `dependents.set`). -/
def mergeDeps (deps grand : DepMap) : DepMap :=
  grand.foldl (fun d p => depSet d p.1 (p.2.foldl addId ((d.lookup p.1).getD []))) deps

/-- The visited-set key, JS template string `tableName:id`. -/
def keyOf (t : String) (i : JsVal) : String :=
  t ++ ":" ++ jsTemplate i

/-- The `childRows.forEach` loop: add each child id to the accumulator for
this child table, recurse into the child, and merge the returned
grandchildren into the dependents map, threading the visited set. -/
def depsRows (rec : String → JsVal → List String →
      Option (Except String (DepMap × List String))) (ct : String) :
    List String → DepMap → List JsVal → List (List JsVal) →
      Option (Except String (List JsVal × DepMap × List String))
  | visited, deps, acc, [] => some (Except.ok (acc, deps, visited))
  | visited, deps, acc, row :: rest =>
    let childId := row.getD 0 JsVal.null
    let acc2 := addId acc childId
    match rec ct childId visited with
    | none => none
    | some (Except.error e) => some (Except.error e)
    | some (Except.ok (grand, visited2)) =>
      depsRows rec ct visited2 (mergeDeps deps grand) acc2 rest

/-- The `foreignKeyColumns.forEach` loop: read the rows of the child table
whose column references the deleted id and, when non-empty, run the row
loop and store the accumulated id set for the child table. -/
def depsCols (rec : String → JsVal → List String →
      Option (Except String (DepMap × List String))) (db : Database)
    (i : JsVal) (ct : String) :
    List String → DepMap → List String →
      Option (Except String (DepMap × List String))
  | visited, deps, [] => some (Except.ok (deps, visited))
  | visited, deps, col :: rest =>
    match Database.read db ct [(col, i)] with
    | Except.error e => some (Except.error e)
    | Except.ok rows =>
      if rows.isEmpty then depsCols rec db i ct visited deps rest
      else
        match depsRows rec ct visited deps ((deps.lookup ct).getD []) rows with
        | none => none
        | some (Except.error e) => some (Except.error e)
        | some (Except.ok (acc, deps2, visited2)) =>
          depsCols rec db i ct visited2 (depSet deps2 ct acc) rest

/-- The `childTables.forEach` loop over the metadata registry: every table
with a foreign-key column targeting the current table contributes its
matching columns. -/
def depsTables (rec : String → JsVal → List String →
      Option (Except String (DepMap × List String))) (db : Database)
    (t : String) (i : JsVal) :
    List String → DepMap → List (String × Meta) →
      Option (Except String (DepMap × List String))
  | visited, deps, [] => some (Except.ok (deps, visited))
  | visited, deps, (ct, meta) :: rest =>
    let cols := (meta.foreignKeys.filter (fun p => p.2 = t)).map (fun p => p.1)
    match depsCols rec db i ct visited deps cols with
    | none => none
    | some (Except.error e) => some (Except.error e)
    | some (Except.ok (deps2, visited2)) =>
      depsTables rec db t i visited2 deps2 rest

/-- `AdvancedCrudManager._getDependentRecordsRecursive` with explicit
fuel: return immediately when the `(table,id)` key is already in the
visited set, otherwise add it and walk every registered table whose
declared foreign keys target the current table. -/
def getDepsF (md : Metadata) (db : Database) :
    Nat → String → JsVal → List String →
      Option (Except String (DepMap × List String))
  | 0, _, _, _ => none
  | Nat.succ n, t, i, visited =>
    if visited.contains (keyOf t i) then some (Except.ok ([], visited))
    else
      depsTables (getDepsF md db n) db t i (keyOf t i :: visited) []
        md

/-- All visited-set keys the traversal can ever recurse into: one per live
row of every registered table. -/
def allKeys (md : Metadata) (db : Database) : List String :=
  md.flatMap (fun p =>
    ((Database.getTable db p.1).map RowsState.data |>.getD []).map
      (fun r => keyOf p.1 (r.getD 0 JsVal.null)))

/-- The termination measure: how many reachable keys are not yet
visited. -/
def remaining (md : Metadata) (db : Database) (visited : List String) : Nat :=
  ((allKeys md db).filter (fun k => ¬ visited.contains k)).length

end Adv

/-! ## Join view engine -/

/-- One join spec of a `View`: the next table and the column-equality
test. -/
structure Join where
  rightTable : String
  leftCol : String
  rightCol : String
deriving DecidableEq, Repr

/-- A `View`: ordered table names plus ordered join specs. -/
structure ViewDef where
  tableNames : List String
  joins : List Join
deriving DecidableEq, Repr

namespace ViewEngine

/-- The value of a row at a named column: index the column list, then the
row; a column absent from the list reads as JS `undefined` (`none`). -/
def valueAt (cols : List String) (row : List JsVal) (c : String) : Option JsVal :=
  (cols.indexOf? c).map (fun i => row.getD i JsVal.null)

/-- One iteration of the join loop of `View.prototype.getData`: resolve
the right table, widen the column list with the right table's non-identity
columns qualified by the join's table name, and run the two nested row
loops, pushing the concatenation whenever the indexed values are strictly
equal. -/
def joinStep (db : Database) (acc : List String × List (List JsVal))
    (j : Join) : Option (List String × List (List JsVal)) :=
  match Database.getTable db j.rightTable with
  | none => none
  | some rt =>
    let leftIdx := acc.1.indexOf? j.leftCol
    let rightIdx := rt.columns.indexOf? j.rightCol
    let newCols := acc.1 ++ (rt.columns.drop 1).map (fun c => j.rightTable ++ "." ++ c)
    let newRows := acc.2.foldl (fun res l =>
        rt.data.foldl (fun res2 r =>
            if leftIdx.map (fun k => l.getD k JsVal.null)
                = rightIdx.map (fun k => r.getD k JsVal.null) then
              res2 ++ [l ++ r.drop 1]
            else res2)
          res)
      []
    some (newCols, newRows)

/-- `View.prototype.getData`: start from the full row set and column list
of the first table and fold the join steps in order. A missing table is
the JS crash, modelled as `none`. -/
def getData (db : Database) (v : ViewDef) :
    Option (List String × List (List JsVal)) :=
  match v.tableNames with
  | [] => none
  | t0 :: _ =>
    match Database.getTable db t0 with
    | none => none
    | some tb0 =>
      v.joins.foldl (fun acc? j => acc?.bind (fun acc => joinStep db acc j))
        (some (tb0.columns, tb0.data))

/-- One join step as worded by the specification: keep a (left, right)
combination iff the left row's value at the join's left column equals the
right row's value at the join's right column; each kept row is the left
row concatenated with the right row's non-identity values, produced in
left-major, right-minor order; a left row with no match contributes
nothing. -/
def joinStepSpec (db : Database) (acc : List String × List (List JsVal))
    (j : Join) : Option (List String × List (List JsVal)) :=
  match Database.getTable db j.rightTable with
  | none => none
  | some rt =>
    some (acc.1 ++ (rt.columns.drop 1).map (fun c => j.rightTable ++ "." ++ c),
      acc.2.flatMap (fun l =>
        (rt.data.filter (fun r =>
            valueAt acc.1 l j.leftCol = valueAt rt.columns r j.rightCol)).map
          (fun r => l ++ r.drop 1)))

/-- The specification-worded view computation. -/
def getDataSpec (db : Database) (v : ViewDef) :
    Option (List String × List (List JsVal)) :=
  match v.tableNames with
  | [] => none
  | t0 :: _ =>
    match Database.getTable db t0 with
    | none => none
    | some tb0 =>
      v.joins.foldl (fun acc? j => acc?.bind (fun acc => joinStepSpec db acc j))
        (some (tb0.columns, tb0.data))

end ViewEngine

/-! ## Reference-level row store

A second, heap-explicit embedding of the same `Rows` code, keeping track
of JS array identity: `Rowset.prototype.toArray` is
`this.rows.map(row => row.data)`, i.e. it hands out the live array
references, and `Rows.prototype.update` writes `row.data[idx] = v` in
place, so this level is where statements about "previously returned data"
live. The heap maps addresses to arrays; each live row object holds the
address of its current data array. -/

structure RowsRef where
  columns : List String
  unique : List (List String)
  rowAddrs : List Nat
  heap : List (List JsVal)
  nextId : Int
  uniqueMaps : List (List String)
deriving DecidableEq, Repr

namespace RowsRefStore

/-- Read an array from the heap. -/
def deref (heap : List (List JsVal)) (a : Nat) : List JsVal :=
  heap.getD a []

/-- The read path `Rows.find` + `Rowset.toArray`: the addresses of the
data arrays of the matching rows — references into live storage, not
copies. -/
def findRefs (s : RowsRef) (filter : List (String × JsVal)) : List Nat :=
  s.rowAddrs.filter (fun a =>
    RowsStore.matchesFilter s.columns filter (deref s.heap a))

/-- `Rows.prototype.update` at the reference level: snapshot the row's
array (`[...row.data]` allocates a fresh array), merge the supplied fields
into the row's array in place, then run the unique-constraint loop; on a
collision the row object is re-pointed at the snapshot (`row.data =
oldData`) while the partially updated original array stays on the heap,
still visible through any previously handed-out reference. -/
def update (s : RowsRef) (id : JsVal) (updates : List (String × JsVal)) :
    Except String Unit × RowsRef :=
  match s.rowAddrs.findIdx? (fun a => (deref s.heap a).getD 0 JsVal.null = id) with
  | none => (Except.ok (), s)
  | some ridx =>
    let a := s.rowAddrs.getD ridx 0
    let oldRow := deref s.heap a
    let snapAddr := s.heap.length
    let heap1 := s.heap ++ [oldRow]
    let newRow := RowsStore.mergeRow s.columns oldRow updates
    let heap2 := heap1.set a newRow
    let r := RowsStore.updMaps s.columns oldRow newRow s.unique s.uniqueMaps
    match r.1 with
    | some e =>
      (Except.error e,
        { s with heap := heap2, uniqueMaps := r.2,
                 rowAddrs := s.rowAddrs.set ridx snapAddr })
    | none => (Except.ok (), { s with heap := heap2, uniqueMaps := r.2 })

/-- `Rows.prototype.delete` at the reference level: drop the row's keys
from the unique maps and filter the row object out of the collection. The
row's data array itself is not touched (`this.data.filter` builds a new
row list, it does not write into any array). -/
def delete (s : RowsRef) (id : JsVal) : RowsRef :=
  match s.rowAddrs.find? (fun a => (deref s.heap a).getD 0 JsVal.null = id) with
  | none => s
  | some a =>
    { s with
      uniqueMaps :=
        RowsStore.delMaps s.columns (deref s.heap a) s.unique s.uniqueMaps,
      rowAddrs := s.rowAddrs.filter
        (fun b => ¬ (deref s.heap b).getD 0 JsVal.null = id) }

end RowsRefStore

/-! ## Operation traces over a single table (for the identity claims) -/

inductive Op where
  | createOp (rowData : List (String × JsVal)) : Op
  | updateOp (id : JsVal) (updates : List (String × JsVal)) : Op
  | deleteOp (id : JsVal) : Op

/-- Apply one store operation, reporting the identity assigned when the
operation was a successful create. -/
def applyOp (s : RowsState) (op : Op) : RowsState × Option Int :=
  match op with
  | Op.createOp rd =>
    match RowsStore.add s rd with
    | (Except.ok i, s2) => (s2, some i)
    | (Except.error _, s2) => (s2, none)
  | Op.updateOp id us => ((RowsStore.update s id us).2, none)
  | Op.deleteOp id => (RowsStore.delete s id, none)

/-- The identities handed out by the successful creates of a trace, in
order. -/
def assignedIds (s : RowsState) : List Op → List Int
  | [] => []
  | op :: ops =>
    match applyOp s op with
    | (s2, some i) => i :: assignedIds s2 ops
    | (s2, none) => assignedIds s2 ops

/-! ## Row-level dependency (for the cascade claims) -/

/-- A row with the given index-0 identity value is live in the given
table. -/
def liveRow (db : Database) (t : String) (rid : JsVal) : Prop :=
  ∃ tb, Database.getTable db t = some tb ∧
    ∃ row ∈ tb.data, row.getD 0 JsVal.null = rid

/-- Direct foreign-key dependency between rows, exactly as the cascade
scan observes it: the child table's registered metadata declares a
foreign-key column targeting the parent table, and the child row matches
the `{col: parentId}` read filter. -/
def dependsOn (md : Metadata) (db : Database) (c p : String × JsVal) : Prop :=
  ∃ meta, List.lookup c.1 md = some meta ∧
    ∃ col, (col, p.1) ∈ meta.foreignKeys ∧
      ∃ tb, Database.getTable db c.1 = some tb ∧
        ∃ row ∈ tb.data, row.getD 0 JsVal.null = c.2 ∧
          RowsStore.matchesFilter tb.columns [(col, p.2)] row = true



/-! ## Concrete fixtures used by the claim theorems -/

/-- A fresh table with two single-column unique constraints, as produced
by `new Table(name, ["id","x","y"], [["x"],["y"]])`. -/
def uniqT : RowsState :=
  { columns := ["id", "x", "y"], unique := [["x"], ["y"]], data := [],
    nextId := 1, uniqueMaps := [[], []] }

/-- `uniqT` after a successful create of `{x:"a", y:"b"}`. -/
def c1s1 : RowsState :=
  (RowsStore.add uniqT [("x", JsVal.str "a"), ("y", JsVal.str "b")]).2

/-- `c1s1` after the failed create of `{x:"c", y:"b"}` (collision on the
`y` constraint, detected after the `x` key was already registered). -/
def c1s2 : RowsState :=
  (RowsStore.add c1s1 [("x", JsVal.str "c"), ("y", JsVal.str "b")]).2

/-- `c1s1` after a successful create of `{x:"c", y:"d"}`. -/
def c1s3 : RowsState :=
  (RowsStore.add c1s1 [("x", JsVal.str "c"), ("y", JsVal.str "d")]).2

/-- `c1s3` after the failed update of row 1 to `{x:"e", y:"d"}`: the `x`
constraint re-keys "a" → "e" before the `y` collision aborts the update
and rolls back only the row values. -/
def c1s4 : RowsState :=
  (RowsStore.update c1s3 (JsVal.int 1)
    [("x", JsVal.str "e"), ("y", JsVal.str "d")]).2

/-- The Players table of the cascade scenario: rows 5 and 6. -/
def fixPlayers : RowsState :=
  { columns := ["id", "Name"], unique := [],
    data := [[JsVal.int 5, JsVal.str "Roger"], [JsVal.int 6, JsVal.str "Alan"]],
    nextId := 7, uniqueMaps := [] }

/-- The Games table of the cascade scenario: rows 1 and 2 reference
player 5 through `player1_id`, row 3 references player 6. -/
def fixGames : RowsState :=
  { columns := ["id", "player1_id"], unique := [],
    data := [[JsVal.int 1, JsVal.int 5], [JsVal.int 2, JsVal.int 5],
             [JsVal.int 3, JsVal.int 6]],
    nextId := 4, uniqueMaps := [] }

/-- The two-table catalog of the cascade scenario. -/
def dbPG : Database := [("tblPlayers", fixPlayers), ("tblGames", fixGames)]

/-- The registered metadata of the cascade scenario: Games declares
`player1_id → tblPlayers`. -/
def mdPG : Metadata :=
  [("tblPlayers", { primaryKey := some "id" }),
   ("tblGames", { primaryKey := some "id",
                  foreignKeys := [("player1_id", "tblPlayers")] })]

/-- Two mutually referencing tables: row 1 of A references row 2 of B and
vice versa. -/
def fixA : RowsState :=
  { columns := ["id", "b_id"], unique := [],
    data := [[JsVal.int 1, JsVal.int 2]], nextId := 2, uniqueMaps := [] }

/-- See `fixA`. -/
def fixB : RowsState :=
  { columns := ["id", "a_id"], unique := [],
    data := [[JsVal.int 2, JsVal.int 1]], nextId := 3, uniqueMaps := [] }

/-- Catalog holding the mutually referencing rows. -/
def dbCyc : Database := [("tblA", fixA), ("tblB", fixB)]

/-- The metadata entry of table A: a foreign key into B. -/
def metaAcyc : Meta := { foreignKeys := [("b_id", "tblB")] }

/-- The metadata entry of table B: a foreign key into A. -/
def metaBcyc : Meta := { foreignKeys := [("a_id", "tblA")] }

/-- Cyclic foreign-key metadata: A → B and B → A. -/
def mdCyc : Metadata := [("tblA", metaAcyc), ("tblB", metaBcyc)]

/-- The plain `Crud.delete` recursion completes at the given root within
some recursion depth. -/
def CrudDeleteTerminates (md : Metadata) (db : Database) (t : String)
    (i : JsVal) : Prop :=
  ∃ n, (Crud.deleteF md n db t i).isSome

/-- A one-table catalog for the registration-time-validation claim. -/
def dbC9 : Database :=
  [("tblCustomers",
    { columns := ["id", "Name"], unique := [],
      data := [[JsVal.int 1, JsVal.str "Ann"]], nextId := 2,
      uniqueMaps := [] })]

/-- Metadata registered against `dbC9` whose declared child table
`tblOrders` does not exist in the catalog. -/
def mdBadC9 : Metadata :=
  Crud.define [("tblCustomers", { primaryKey := some "id" })] "Orders"
    { foreignKeys := [("customer_id", "tblCustomers")] }

/-- A one-row reference-level table for the snapshot claim. -/
def c8s : RowsRef :=
  { columns := ["id", "x"], unique := [], rowAddrs := [0],
    heap := [[JsVal.int 1, JsVal.str "a"]], nextId := 2, uniqueMaps := [] }

/-- `c1s4` after the then-successful create of `{x:"a", y:"z"}`: the leak
left by the failed update removed "a" from the x-constraint map, so this
create is accepted although row 1 still holds x = "a". -/
def c1s5 : RowsState :=
  (RowsStore.add c1s4 [("x", JsVal.str "a"), ("y", JsVal.str "z")]).2

/-! ## Claim theorems -/

/-- Metadata registering, without complaint, a foreign key whose target
table `tblNowhere` is in no catalog. -/
def mdDangling : Metadata :=
  Crud.define [] "Games" { foreignKeys := [("player1_id", "tblNowhere")] }

/-- A catalog containing only the Games table, used with `mdDangling`. -/
def dbGamesOnly : Database :=
  [("tblGames",
    { columns := ["id", "player1_id"], unique := [], data := [], nextId := 1,
      uniqueMaps := [] })]

/-- The database produced by the unvalidated foreign-key update of the C5
counterexample: Games row 1 now references the non-existent player 999. -/
def dbPGdangling : Database :=
  [("tblPlayers", fixPlayers),
   ("tblGames",
    { columns := ["id", "player1_id"], unique := [],
      data := [[JsVal.int 1, JsVal.int 999], [JsVal.int 2, JsVal.int 5],
               [JsVal.int 3, JsVal.int 6]],
      nextId := 4, uniqueMaps := [] })]

/-- The unique-index maps hold exactly the constraint keys of the live
rows — the invariant a correctly maintained store provides at the moment
an update is issued. -/
def mapsExact (s : RowsState) : Prop :=
  ∀ j, j < s.unique.length →
    (∀ k ∈ s.uniqueMaps.getD j [],
        k ∈ s.data.map (RowsStore.uniqueKey s.columns (s.unique.getD j [])))
    ∧ (∀ k ∈ s.data.map (RowsStore.uniqueKey s.columns (s.unique.getD j [])),
        k ∈ s.uniqueMaps.getD j [])

/-- A two-row table with a unique constraint on `x` and maps in sync,
for the C4 witness. -/
def c4s : RowsState :=
  { columns := ["id", "x"], unique := [["x"]],
    data := [[JsVal.int 1, JsVal.str "a"], [JsVal.int 2, JsVal.str "b"]],
    nextId := 3, uniqueMaps := [["b", "a"]] }

/-- A recursive-call candidate only ever grows the visited set. -/
def Adv.RecGrows (rec : String → JsVal → List String →
    Option (Except String (DepMap × List String))) : Prop :=
  ∀ ct ci v d v2, rec ct ci v = some (Except.ok (d, v2)) → v ⊆ v2

/-- A recursive-call candidate completes at every reachable key whenever
fewer than `n` reachable keys remain unvisited. -/
def Adv.RecTotal (md : Metadata) (db : Database) (rec : String → JsVal →
    List String → Option (Except String (DepMap × List String)))
    (n : Nat) : Prop :=
  ∀ ct ci v, keyOf ct ci ∈ allKeys md db →
    remaining md db v < n → (rec ct ci v).isSome = true

/-- `db2` holds a sub-collection of `db`: every table of `db2` exists in
`db` with the same columns and a subset of the rows (the shape every
deletion step preserves). -/
def Subdb (db2 db : Database) : Prop :=
  ∀ (t : String) (tb2 : RowsState), Database.getTable db2 t = some tb2 →
    ∃ tb, Database.getTable db t = some tb ∧ tb2.columns = tb.columns ∧
      ∀ row ∈ tb2.data, row ∈ tb.data

/-- Soundness bundle for a cascade recursion candidate: a completed run
shrinks the database and removes only rows transitively dependent on its
root. -/
def RecSound (md : Metadata)
    (rec : Database → String → JsVal → Crud.DelRes) : Prop :=
  ∀ db t i db2 log, rec db t i = some (Except.ok (db2, log)) →
    Subdb db2 db ∧
      ∀ tb rid, normTbl tb = tb → liveRow db tb rid → ¬ liveRow db2 tb rid →
        Relation.ReflTransGen (dependsOn md db) (tb, rid) (normTbl t, i)

/-- The Players table after the cascade delete of the scenario: only
Alan's row remains. -/
def playersAfter : RowsState :=
  { columns := ["id", "Name"]
    unique := []
    data := [[JsVal.int 6, JsVal.str "Alan"]]
    nextId := 7
    uniqueMaps := [] }

/-- The Games table after the cascade delete of the scenario: only the
game referencing player 6 remains. -/
def gamesAfter : RowsState :=
  { columns := ["id", "player1_id"]
    unique := []
    data := [[JsVal.int 3, JsVal.int 6]]
    nextId := 4
    uniqueMaps := [] }

/-- The post-state of the cascade-delete scenario. -/
def dbPGafter : Database :=
  [("tblPlayers", playersAfter), ("tblGames", gamesAfter)]

/-- The database obtained by replaying a deletion log: one
`Database.delete` per entry, in order. A completed cascade run's final
state is exactly the replay of its log. -/
def replay (db : Database) (log : Crud.Log) : Database :=
  log.foldl (fun d e => (Database.delete d e.1 e.2).2) db

/-- Rows disappear only in whole-identity batches: when one row of a
table is removed, every row of that table carrying the same index-0
identity is removed with it (the shape every `Database.delete` has). -/
def Batch (db2 db : Database) : Prop :=
  ∀ tname tb tb2, Database.getTable db tname = some tb →
    Database.getTable db2 tname = some tb2 →
    ∀ row ∈ tb.data, row ∉ tb2.data →
      ∀ row2 ∈ tb.data, row2.getD 0 JsVal.null = row.getD 0 JsVal.null →
        row2 ∉ tb2.data

/-- No removed pair keeps a live dependent: every pair (with a normalized
table name) that was live before the run and dead after it has, in the
final state, no live row carrying a declared foreign-key reference to
it. -/
def GoneClosed (md : Metadata) (db db2 : Database) : Prop :=
  ∀ p : String × JsVal, normTbl p.1 = p.1 →
    liveRow db p.1 p.2 → ¬ liveRow db2 p.1 p.2 →
    ∀ c : String × JsVal, liveRow db2 c.1 c.2 → ¬ dependsOn md db2 c p

/-- Dependents are deleted before the rows they reference: when the k-th
logged `Database.delete` executes (against the replay of the first k
entries), no live row still depends on the pair being deleted. -/
def LogOrdered (md : Metadata) (db : Database) (log : Crud.Log) : Prop :=
  ∀ k, (hk : k < log.length) →
    ∀ c : String × JsVal, liveRow (replay db (log.take k)) c.1 c.2 →
      ¬ dependsOn md (replay db (log.take k)) c (log.get ⟨k, hk⟩)

/-- The full invariant bundle of a cascade recursion candidate: a
completed run shrinks the database, removes rows in whole-identity
batches, leaves no removed pair with a live dependent, equals the replay
of its log, deletes dependents before the rows they reference, kills its
root, and leaves the root without live dependents. -/
def RecFull (md : Metadata)
    (rec : Database → String → JsVal → Crud.DelRes) : Prop :=
  ∀ db t i db2 log, rec db t i = some (Except.ok (db2, log)) →
    Subdb db2 db ∧ Batch db2 db ∧ GoneClosed md db db2 ∧
      db2 = replay db log ∧ LogOrdered md db log ∧
      ¬ liveRow db2 (normTbl t) i ∧
      (∀ c : String × JsVal, liveRow db2 c.1 c.2 →
        ¬ dependsOn md db2 c (normTbl t, i))


/-- C1: the claim is right and the code is wrong. After the create of
`{x:"c", y:"b"}` fails on the `y` constraint, the `x` unique map retains
the key "c" of the never-inserted row (partial state from a failed
attempt), and after the further failed update of row 1 to
`{x:"e", y:"d"}` the maps have lost row 1's live key "a", so a later
create of `{x:"a", y:"z"}` is accepted and two distinct live rows share
the value tuple of the unique constraint on `x`. -/
theorem c1_failed_ops_leak_unique_state :
    ((RowsStore.add c1s1 [("x", JsVal.str "c"), ("y", JsVal.str "b")]).1
        = Except.error "Unique constraint violation on y"
      ∧ (c1s2.uniqueMaps.getD 0 []).contains "c" = true
      ∧ c1s2.data.all
          (fun row => ¬ RowsStore.uniqueKey c1s2.columns ["x"] row = "c") = true)
    ∧ ((RowsStore.add c1s4 [("x", JsVal.str "a"), ("y", JsVal.str "z")]).1
        = Except.ok 3
      ∧ ¬ c1s5.data.getD 0 [] = c1s5.data.getD 2 []
      ∧ RowsStore.uniqueKey c1s5.columns ["x"] (c1s5.data.getD 0 [])
          = RowsStore.uniqueKey c1s5.columns ["x"] (c1s5.data.getD 2 [])) := by
  exact ⟨⟨rfl, rfl, rfl⟩, rfl, by decide, rfl⟩

/-- C8 counterexample: the data previously returned by a read is changed
by a subsequent update. The read of the single-row table hands out the
reference to the live row array; the update writes the new `x` value into
that same array, so the previously returned result now shows the new
value. -/
theorem c8_update_mutates_returned_refs :
    (RowsRefStore.findRefs c8s []).map (RowsRefStore.deref c8s.heap)
        = [[JsVal.int 1, JsVal.str "a"]]
    ∧ (RowsRefStore.update c8s (JsVal.int 1) [("x", JsVal.str "b")]).1
        = Except.ok ()
    ∧ (RowsRefStore.findRefs c8s []).map
          (RowsRefStore.deref
            (RowsRefStore.update c8s (JsVal.int 1) [("x", JsVal.str "b")]).2.heap)
        = [[JsVal.int 1, JsVal.str "b"]]
    ∧ ¬ ([[JsVal.int 1, JsVal.str "a"]] : List (List JsVal))
        = [[JsVal.int 1, JsVal.str "b"]] := by
  exact ⟨rfl, rfl, rfl, by decide⟩

/-- C8 amended: a delete never writes into any row array, so data
previously returned by a read is unchanged by a subsequent delete; it is
updates that mutate previously returned data in place (see the
counterexample). -/
theorem c8_delete_preserves_returned_refs :
    ∀ (s : RowsRef) (filter : List (String × JsVal)) (id : JsVal),
      (RowsRefStore.delete s id).heap = s.heap
      ∧ (RowsRefStore.findRefs s filter).map
            (RowsRefStore.deref (RowsRefStore.delete s id).heap)
        = (RowsRefStore.findRefs s filter).map (RowsRefStore.deref s.heap) := by
  intro s filter id
  have h : (RowsRefStore.delete s id).heap = s.heap := by
    unfold RowsRefStore.delete
    cases s.rowAddrs.find?
        (fun a => (RowsRefStore.deref s.heap a).getD 0 JsVal.null = id) with
    | none => rfl
    | some a => rfl
  exact ⟨h, by rw [h]⟩

/-- Looking up a key after the overwrite-in-place branch of a JS object
assignment yields the new value. -/
theorem lookup_map_overwrite (t : String) (meta : Meta) :
    ∀ (md : List (String × Meta)),
      (List.lookup t md).isSome = true →
      List.lookup t (md.map (fun p => if p.1 = t then (p.1, meta) else p))
        = some meta := by
  intro md
  induction md with
  | nil => intro h; simp [List.lookup] at h
  | cons p rest ih =>
    intro h
    rcases p with ⟨k, v⟩
    rw [List.map_cons]
    by_cases hp : (k, v).1 = t
    · have hentry : (if (k, v).1 = t then ((k, v).1, meta) else (k, v)) = (k, meta) := by
        rw [if_pos hp]
      rw [hentry]
      have hbeq : (t == k) = true := beq_iff_eq.mpr hp.symm
      simp [List.lookup, hbeq]
    · have hentry : (if (k, v).1 = t then ((k, v).1, meta) else (k, v)) = (k, v) := by
        rw [if_neg hp]
      rw [hentry]
      have hbeq : (t == k) = false := beq_false_of_ne (fun hh => hp hh.symm)
      simp only [List.lookup, hbeq] at h
      simp only [List.lookup, hbeq]
      exact ih h

/-- Looking up a key appended to an association list without it yields the
appended value. -/
theorem lookup_append_new (t : String) (meta : Meta) :
    ∀ (md : List (String × Meta)),
      List.lookup t md = none →
      List.lookup t (md ++ [(t, meta)]) = some meta := by
  intro md
  induction md with
  | nil => intro _; simp [List.lookup]
  | cons p rest ih =>
    intro h
    rcases p with ⟨k, v⟩
    by_cases hp : k = t
    · have hbeq : (t == k) = true := beq_iff_eq.mpr hp.symm
      simp only [List.lookup, hbeq] at h
      exact absurd h (by simp)
    · have hbeq : (t == k) = false := beq_false_of_ne (fun hh => hp hh.symm)
      simp only [List.lookup, hbeq] at h
      simp only [List.cons_append, List.lookup, hbeq]
      exact ih h

/-- C9 amended: metadata registration is total and stores the declaration
unvalidated: for every registry, table name and metadata object — in
particular one whose foreign-key targets or columns do not exist —
`define` completes normally and the registry afterwards holds exactly the
given metadata under the normalized name; no Configuration error exists at
registration time (validity is only discovered when an operation later
touches the declaration). -/
theorem c9_define_stores_unvalidated :
    ∀ (md : Metadata) (t : String) (meta : Meta),
      List.lookup (normTbl t) (Crud.define md t meta) = some meta := by
  intro md t meta
  unfold Crud.define
  by_cases h : (List.lookup (normTbl t) md).isSome = true
  · simp only [h, if_true]
    exact lookup_map_overwrite (normTbl t) meta md h
  · have hn : List.lookup (normTbl t) md = none := by
      cases hl : List.lookup (normTbl t) md with
      | none => rfl
      | some m => rw [hl] at h; simp at h
    simp only [hn, Option.isSome_none, Bool.false_eq_true, if_false]
    exact lookup_append_new (normTbl t) meta md hn

/-- C9 counterexample: registering metadata that names a foreign-key
target table absent from every catalog, and metadata for a table absent
from the catalog, both complete normally — no Configuration error exists
at registration time. The failure is deferred: exercising the dangling
declaration later surfaces as a `TypeError` (here at create time for the
dangling target, and at delete-time traversal for the unknown declaring
table), contradicting the claim that this is rejected at `define` and
never deferred. -/
theorem c9_registration_not_validated_counterexample :
    Crud.define [] "Games" { foreignKeys := [("player1_id", "tblNowhere")] }
      = [("tblGames",
          { primaryKey := none, foreignKeys := [("player1_id", "tblNowhere")] })]
    ∧ Crud.create mdDangling dbGamesOnly "tblGames" [("player1_id", JsVal.int 7)]
      = (Except.error "TypeError: cannot read rows of undefined table",
         dbGamesOnly)
    ∧ Crud.define [("tblCustomers", { primaryKey := some "id" })] "Orders"
        { foreignKeys := [("customer_id", "tblCustomers")] }
      = [("tblCustomers", { primaryKey := some "id", foreignKeys := [] }),
         ("tblOrders",
          { primaryKey := none,
            foreignKeys := [("customer_id", "tblCustomers")] })]
    ∧ Crud.deleteF mdBadC9 5 dbC9 "tblCustomers" (JsVal.int 1)
      = some (Except.error "TypeError: cannot read rows of undefined table") := by
  exact ⟨rfl, rfl, rfl, rfl⟩

/-- C5 counterexample: `Crud.update` performs no foreign-key validation.
No Players row has identity 999, yet updating Games row 1 to reference
player 999 succeeds and mutates storage, where the claim requires a
Foreign-Key-Violation with zero storage side effects. -/
theorem c5_update_skips_fk_validation :
    Database.read dbPG "tblPlayers" [("id", JsVal.int 999)] = Except.ok []
    ∧ Crud.update mdPG dbPG "tblGames" (JsVal.int 1)
        [("player1_id", JsVal.int 999)]
      = (Except.ok (), dbPGdangling)
    ∧ ¬ dbPGdangling = dbPG := by
  exact ⟨rfl, rfl, by decide⟩

/-- The identity counter advances by exactly one on every `add`, whether
or not the unique checks pass (`arr[0] = this.nextId++` runs first). -/
theorem add_nextId (s : RowsState) (rd : List (String × JsVal)) :
    (RowsStore.add s rd).2.nextId = s.nextId + 1 := by
  unfold RowsStore.add
  dsimp only
  split <;> rfl

/-- An `add` never returns a successful identity other than the pre-call
counter value. -/
theorem add_ok_id (s : RowsState) (rd : List (String × JsVal)) (i : Int)
    (s2 : RowsState) (h : RowsStore.add s rd = (Except.ok i, s2)) :
    i = s.nextId := by
  unfold RowsStore.add at h
  dsimp only at h
  split at h
  · exact absurd (congrArg Prod.fst h) (by simp)
  · have h1 := congrArg Prod.fst h
    simp only at h1
    cases h1
    rfl

/-- A failed `add` inserts no row. -/
theorem add_error_data (s : RowsState) (rd : List (String × JsVal))
    (e : String) (s2 : RowsState)
    (h : RowsStore.add s rd = (Except.error e, s2)) : s2.data = s.data := by
  unfold RowsStore.add at h
  dsimp only at h
  split at h
  · have h2 := congrArg Prod.snd h
    simp only at h2
    rw [← h2]
  · exact absurd (congrArg Prod.fst h) (by simp)

/-- No store operation ever decreases the identity counter. -/
theorem applyOp_nextId (s : RowsState) (op : Op) :
    s.nextId ≤ (applyOp s op).1.nextId := by
  cases op with
  | createOp rd =>
    have hs : (applyOp s (Op.createOp rd)).1 = (RowsStore.add s rd).2 := by
      unfold applyOp
      cases h : RowsStore.add s rd with
      | mk r s2 => cases r <;> simp [h]
    rw [hs, add_nextId]
    omega
  | updateOp id us =>
    show s.nextId ≤ (RowsStore.update s id us).2.nextId
    unfold RowsStore.update
    dsimp only
    split
    · exact le_refl _
    · split <;> exact le_refl _
  | deleteOp id =>
    show s.nextId ≤ (RowsStore.delete s id).nextId
    unfold RowsStore.delete
    split <;> exact le_refl _

/-- An operation reporting an assigned identity was a successful create;
the identity is the pre-call counter and the counter advanced by one. -/
theorem applyOp_assigned (s : RowsState) (op : Op) (s2 : RowsState) (j : Int)
    (h : applyOp s op = (s2, some j)) :
    j = s.nextId ∧ s2.nextId = s.nextId + 1 := by
  cases op with
  | createOp rd =>
    unfold applyOp at h
    dsimp only at h
    cases hadd : RowsStore.add s rd with
    | mk r st =>
      rw [hadd] at h
      cases r with
      | ok i =>
        simp only [Prod.mk.injEq, Option.some.injEq] at h
        obtain ⟨h1, h2⟩ := h
        constructor
        · rw [← h2]
          exact add_ok_id s rd i st hadd
        · rw [← h1]
          have := add_nextId s rd
          rw [hadd] at this
          exact this
      | error e => simp at h
  | updateOp id us => simp [applyOp] at h
  | deleteOp id => simp [applyOp] at h

/-- Every identity assigned along a trace is at least the starting
counter value. -/
theorem assignedIds_lower (ops : List Op) :
    ∀ (s : RowsState), ∀ i ∈ assignedIds s ops, s.nextId ≤ i := by
  induction ops with
  | nil => intro s i hi; simp [assignedIds] at hi
  | cons op rest ih =>
    intro s i hi
    unfold assignedIds at hi
    cases hap : applyOp s op with
    | mk s2 r =>
      rw [hap] at hi
      have hs2 : s.nextId ≤ s2.nextId := by
        have := applyOp_nextId s op
        rw [hap] at this
        exact this
      cases r with
      | none => exact le_trans hs2 (ih s2 i hi)
      | some j =>
        simp only [List.mem_cons] at hi
        cases hi with
        | inl hEq =>
          have := (applyOp_assigned s op s2 j hap).1
          omega
        | inr hMem => exact le_trans hs2 (ih s2 i hMem)

/-- C6: identities handed out by successive successful creates on a table
are strictly increasing along every operation trace (hence never reused,
deletes included: deletion never lowers the counter). -/
theorem c6_identities_strictly_increasing :
    ∀ (ops : List Op) (s : RowsState),
      (assignedIds s ops).Pairwise (fun a b => a < b) := by
  intro ops
  induction ops with
  | nil => intro s; simp [assignedIds]
  | cons op rest ih =>
    intro s
    unfold assignedIds
    cases hap : applyOp s op with
    | mk s2 r =>
      cases r with
      | none => exact ih s2
      | some j =>
        refine List.Pairwise.cons ?_ (ih s2)
        intro b hb
        have hj := applyOp_assigned s op s2 j hap
        have hlow := assignedIds_lower rest s2 b hb
        omega

/-- C10: a create that fails its unique check inserts no row yet advances
the identity counter, and the identity it would have used is permanently
skipped: every identity assigned later is strictly larger. -/
theorem c10_failed_create_skips_identity (s : RowsState)
    (rd : List (String × JsVal)) (e : String) (s2 : RowsState)
    (h : RowsStore.add s rd = (Except.error e, s2)) :
    s2.data = s.data ∧ s2.nextId = s.nextId + 1 ∧
      ∀ (ops : List Op), ∀ i ∈ assignedIds s2 ops, s.nextId < i := by
  have hdata := add_error_data s rd e s2 h
  have hn : s2.nextId = s.nextId + 1 := by
    have := add_nextId s rd
    rw [h] at this
    exact this
  refine ⟨hdata, hn, ?_⟩
  intro ops i hi
  have := assignedIds_lower ops s2 i hi
  omega

/-- C10 witness: in the two-constraint table, the create of
`{x:"c", y:"b"}` fails on the `y` constraint; no row is inserted, the
counter advanced from 2 to 3, and the next successful create receives
identity 3 > 2. -/
theorem c10_witness :
    c1s2.data = c1s1.data ∧ c1s2.nextId = c1s1.nextId + 1 ∧ c1s1.nextId < 3 := by
  have H := c10_failed_create_skips_identity c1s1
    [("x", JsVal.str "c"), ("y", JsVal.str "b")]
    "Unique constraint violation on y" c1s2 rfl
  exact ⟨H.1, H.2.1,
    H.2.2 [Op.createOp [("x", JsVal.str "q"), ("y", JsVal.str "r")]] 3
      (by decide)⟩

/-- A conditional-push fold is the filtered map appended to the
accumulator. -/
theorem foldl_push_filter {α β : Type} (p : α → Prop) [DecidablePred p]
    (g : α → β) :
    ∀ (xs : List α) (res : List β),
      xs.foldl (fun r x => if p x then r ++ [g x] else r) res
        = res ++ (xs.filter (fun x => decide (p x))).map g := by
  intro xs
  induction xs with
  | nil => intro res; simp
  | cons x rest ih =>
    intro res
    by_cases hp : p x
    · simp [List.foldl_cons, hp, ih, List.filter_cons]
    · simp [List.foldl_cons, hp, ih, List.filter_cons]

/-- An appending fold is the flat map appended to the accumulator. -/
theorem foldl_append_flatMap {α β : Type} (F : α → List β) :
    ∀ (xs : List α) (res : List β),
      xs.foldl (fun r x => r ++ F x) res = res ++ xs.flatMap F := by
  intro xs
  induction xs with
  | nil => intro res; simp
  | cons x rest ih =>
    intro res
    simp [List.foldl_cons, ih, List.flatMap_cons, List.append_assoc]

/-- The nested-loop join step of the source computes exactly the
specification's filtered product. -/
theorem joinStep_eq_spec (db : Database) (acc : List String × List (List JsVal))
    (j : Join) : ViewEngine.joinStep db acc j = ViewEngine.joinStepSpec db acc j := by
  unfold ViewEngine.joinStep ViewEngine.joinStepSpec
  cases Database.getTable db j.rightTable with
  | none => rfl
  | some rt =>
    dsimp only
    refine congrArg some (congrArg (Prod.mk _) ?_)
    have hrow : ∀ (l : List JsVal) (res : List (List JsVal)),
        rt.data.foldl (fun res2 r =>
            if (acc.1.indexOf? j.leftCol).map (fun k => l.getD k JsVal.null)
                = (rt.columns.indexOf? j.rightCol).map (fun k => r.getD k JsVal.null)
            then res2 ++ [l ++ r.drop 1] else res2) res
          = res ++ (rt.data.filter (fun r =>
              decide (ViewEngine.valueAt acc.1 l j.leftCol
                = ViewEngine.valueAt rt.columns r j.rightCol))).map
              (fun r => l ++ r.drop 1) := by
      intro l res
      exact foldl_push_filter
        (fun r => ViewEngine.valueAt acc.1 l j.leftCol
          = ViewEngine.valueAt rt.columns r j.rightCol)
        (fun r => l ++ r.drop 1) rt.data res
    calc acc.2.foldl (fun res l =>
            rt.data.foldl (fun res2 r =>
              if (acc.1.indexOf? j.leftCol).map (fun k => l.getD k JsVal.null)
                  = (rt.columns.indexOf? j.rightCol).map (fun k => r.getD k JsVal.null)
              then res2 ++ [l ++ r.drop 1] else res2) res) []
        = acc.2.foldl (fun res l =>
            res ++ (rt.data.filter (fun r =>
              decide (ViewEngine.valueAt acc.1 l j.leftCol
                = ViewEngine.valueAt rt.columns r j.rightCol))).map
              (fun r => l ++ r.drop 1)) [] := by
          simp only [hrow]
      _ = acc.2.flatMap (fun l =>
            (rt.data.filter (fun r =>
              decide (ViewEngine.valueAt acc.1 l j.leftCol
                = ViewEngine.valueAt rt.columns r j.rightCol))).map
              (fun r => l ++ r.drop 1)) := by
          rw [foldl_append_flatMap]
          simp

/-- C7: `View.getData` computes exactly the specified join semantics:
start from all rows of the first table; for each join in order keep a
(left, right) combination iff the left row's value at the join's left
column equals the right row's value at the join's right column; each kept
row is the left row's values followed by the right row's non-identity
values; a left row with no matching right row disappears; rows are
produced in left-major, right-minor order. -/
theorem c7_getData_is_specified_join :
    ∀ (db : Database) (v : ViewDef),
      ViewEngine.getData db v = ViewEngine.getDataSpec db v := by
  intro db v
  obtain ⟨tns, js⟩ := v
  unfold ViewEngine.getData ViewEngine.getDataSpec
  dsimp only
  cases tns with
  | nil => rfl
  | cons t0 rest =>
    dsimp only
    cases Database.getTable db t0 with
    | none => rfl
    | some tb0 => simp only [joinStep_eq_spec]

/-- If some constraint's key changed and the changed key is already in
that constraint's map, the update constraint loop reports a violation. -/
theorem updMaps_collides (cols : List String) (oldRow newRow : List JsVal) :
    ∀ (us ms : List (List String)) (j : Nat),
      us.length = ms.length →
      j < us.length →
      ¬ RowsStore.uniqueKey cols (us.getD j []) newRow
          = RowsStore.uniqueKey cols (us.getD j []) oldRow →
      (ms.getD j []).contains
          (RowsStore.uniqueKey cols (us.getD j []) newRow) = true →
      (RowsStore.updMaps cols oldRow newRow us ms).1.isSome = true := by
  intro us
  induction us with
  | nil => intro ms j _ hj; exact absurd hj (by simp)
  | cons u us2 ih =>
    intro ms j hlen hj hne hcont
    cases ms with
    | nil => simp at hlen
    | cons m ms2 =>
      unfold RowsStore.updMaps
      dsimp only
      split
      · simp
      · rename_i hcond
        cases j with
        | zero =>
          simp only [List.getD_cons_zero] at hne hcont
          exact absurd ⟨hne, hcont⟩ hcond
        | succ j2 =>
          simp only [List.getD_cons_succ] at hne hcont
          simp only [List.length_cons, Nat.succ_lt_succ_iff] at hj
          simp only [List.length_cons, Nat.succ_inj] at hlen
          exact ih ms2 j2 hlen hj hne hcont

/-- If no constraint key changes, the update constraint loop passes and
leaves every map untouched. -/
theorem updMaps_unchanged (cols : List String) (oldRow newRow : List JsVal) :
    ∀ (us ms : List (List String)),
      (∀ j, j < us.length →
        RowsStore.uniqueKey cols (us.getD j []) newRow
          = RowsStore.uniqueKey cols (us.getD j []) oldRow) →
      RowsStore.updMaps cols oldRow newRow us ms = (none, ms) := by
  intro us
  induction us with
  | nil => intro ms _; rfl
  | cons u us2 ih =>
    intro ms hall
    cases ms with
    | nil => rfl
    | cons m ms2 =>
      have h0 := hall 0 (by simp)
      simp only [List.getD_cons_zero] at h0
      unfold RowsStore.updMaps
      dsimp only
      rw [if_neg (by
        intro hc
        exact hc.1 h0)]
      have hrec := ih ms2 (fun j hj => by
        have := hall (j + 1) (by simpa using Nat.succ_lt_succ hj)
        simpa using this)
      rw [if_neg (by
        intro hc
        exact hc h0)]
      rw [hrec]

/-- C4: on a store whose unique maps exactly reflect the live rows, an
update whose merged row changes some unique constraint's key to one held
by another existing live row raises a Unique-Violation and leaves the
row collection exactly as it was; an update whose merged row keeps every
unique key (in particular a rewrite of a row to its own current values)
succeeds, committing only the merged row. -/
theorem c4_update_unique_rollback :
    ∀ (s : RowsState) (id : JsVal) (updates : List (String × JsVal))
      (ridx : Nat),
      s.unique.length = s.uniqueMaps.length →
      mapsExact s →
      s.data.findIdx? (fun r => r.getD 0 JsVal.null = id) = some ridx →
      ((∃ j, j < s.unique.length ∧
          ¬ RowsStore.uniqueKey s.columns (s.unique.getD j [])
              (RowsStore.mergeRow s.columns (s.data.getD ridx []) updates)
            = RowsStore.uniqueKey s.columns (s.unique.getD j [])
              (s.data.getD ridx []) ∧
          ∃ r2 ∈ s.data,
            RowsStore.uniqueKey s.columns (s.unique.getD j []) r2
              = RowsStore.uniqueKey s.columns (s.unique.getD j [])
                  (RowsStore.mergeRow s.columns (s.data.getD ridx []) updates)) →
        (∃ e, (RowsStore.update s id updates).1 = Except.error e) ∧
          (RowsStore.update s id updates).2.data = s.data)
      ∧ ((∀ j, j < s.unique.length →
          RowsStore.uniqueKey s.columns (s.unique.getD j [])
              (RowsStore.mergeRow s.columns (s.data.getD ridx []) updates)
            = RowsStore.uniqueKey s.columns (s.unique.getD j [])
                (s.data.getD ridx [])) →
        RowsStore.update s id updates
          = (Except.ok (),
             { s with data := s.data.set ridx (RowsStore.mergeRow s.columns (s.data.getD ridx []) updates) })) := by
  intro s id updates ridx hlen hexact hfind
  constructor
  · intro hcoll
    obtain ⟨j, hj, hne, r2, hr2mem, hr2key⟩ := hcoll
    have hmem : RowsStore.uniqueKey s.columns (s.unique.getD j [])
        (RowsStore.mergeRow s.columns (s.data.getD ridx []) updates)
        ∈ s.uniqueMaps.getD j [] := by
      refine (hexact j hj).2 _ ?_
      exact hr2key ▸ List.mem_map_of_mem _ hr2mem
    have hcont : (s.uniqueMaps.getD j []).contains
        (RowsStore.uniqueKey s.columns (s.unique.getD j [])
          (RowsStore.mergeRow s.columns (s.data.getD ridx []) updates)) = true := by
      simpa using hmem
    have hsome := updMaps_collides s.columns (s.data.getD ridx [])
      (RowsStore.mergeRow s.columns (s.data.getD ridx []) updates)
      s.unique s.uniqueMaps j hlen hj hne hcont
    unfold RowsStore.update
    rw [hfind]
    dsimp only
    cases hu : (RowsStore.updMaps s.columns (s.data.getD ridx [])
        (RowsStore.mergeRow s.columns (s.data.getD ridx []) updates)
        s.unique s.uniqueMaps).1 with
    | none => rw [hu] at hsome; simp at hsome
    | some e => exact ⟨⟨e, rfl⟩, rfl⟩
  · intro hsame
    have hu := updMaps_unchanged s.columns (s.data.getD ridx [])
      (RowsStore.mergeRow s.columns (s.data.getD ridx []) updates)
      s.unique s.uniqueMaps hsame
    unfold RowsStore.update
    rw [hfind]
    dsimp only
    rw [hu]

/-- C4 witness: updating row 1 to the other row's unique value errors and
leaves the rows untouched; rewriting row 1 to its own current value
succeeds as a no-op collision with itself. -/
theorem c4_update_unique_rollback_witness :
    ((∃ e, (RowsStore.update c4s (JsVal.int 1) [("x", JsVal.str "b")]).1
        = Except.error e)
      ∧ (RowsStore.update c4s (JsVal.int 1) [("x", JsVal.str "b")]).2.data
        = c4s.data)
    ∧ RowsStore.update c4s (JsVal.int 1) [("x", JsVal.str "a")]
        = (Except.ok (),
           { c4s with data := c4s.data.set 0 (RowsStore.mergeRow c4s.columns (c4s.data.getD 0 []) [("x", JsVal.str "a")]) }) := by
  have hex : mapsExact c4s := by
    intro j hj
    have hlen1 : c4s.unique.length = 1 := rfl
    have hj0 : j = 0 := by omega
    subst hj0
    exact ⟨by decide, by decide⟩
  constructor
  · exact (c4_update_unique_rollback c4s (JsVal.int 1) [("x", JsVal.str "b")] 0
      (by decide) hex (by decide)).1
      ⟨0, by decide, by decide, [JsVal.int 2, JsVal.str "b"], by decide, by decide⟩
  · refine (c4_update_unique_rollback c4s (JsVal.int 1) [("x", JsVal.str "a")] 0
      (by decide) hex (by decide)).2 ?_
    intro j hj
    have hlen1 : c4s.unique.length = 1 := rfl
    have hj0 : j = 0 := by omega
    subst hj0
    decide

/-- Null or absent foreign-key values always pass validation. -/
theorem validateFks_nulls (md : Metadata) (db : Database)
    (obj : List (String × JsVal)) :
    ∀ (fks : List (String × String)),
      (∀ p ∈ fks, List.lookup p.1 obj = none
        ∨ List.lookup p.1 obj = some JsVal.null) →
      Crud.validateFks md db obj fks = Except.ok () := by
  intro fks
  induction fks with
  | nil => intro _; rfl
  | cons p rest ih =>
    intro hall
    rcases p with ⟨col, ft⟩
    have h0 := hall (col, ft) (by simp)
    have htail := ih (fun q hq => hall q (List.mem_cons_of_mem _ hq))
    unfold Crud.validateFks
    cases h0 with
    | inl h => rw [h]; exact htail
    | inr h => rw [h]; exact htail

/-- With every target table present in the catalog, a dangling non-null
foreign-key value forces validation to fail with a
Foreign-Key-Violation. -/
theorem validateFks_dangling (md : Metadata) (db : Database)
    (obj : List (String × JsVal)) :
    ∀ (fks : List (String × String)),
      (∀ p ∈ fks, (Database.getTable db p.2).isSome = true) →
      (∃ p ∈ fks, ∃ v, List.lookup p.1 obj = some v ∧ ¬ v = JsVal.null ∧
          Database.read db p.2 [(Crud.pkOf md p.2, v)] = Except.ok []) →
      ∃ col ft, Crud.validateFks md db obj fks
          = Except.error ("Foreign key constraint failed: " ++ ft ++ "." ++ col) := by
  intro fks
  induction fks with
  | nil => intro _ hex; simp at hex
  | cons p rest ih =>
    intro htabs hex
    rcases p with ⟨col, ft⟩
    have hexRest : List.lookup col obj = none ∨ (∀ v, ¬ List.lookup col obj = some v ∨ v = JsVal.null ∨ ¬ Database.read db ft [(Crud.pkOf md ft, v)] = Except.ok []) →
        (∃ q ∈ rest, ∃ v, List.lookup q.1 obj = some v ∧ ¬ v = JsVal.null ∧
          Database.read db q.2 [(Crud.pkOf md q.2, v)] = Except.ok []) := by
      intro hhead
      obtain ⟨q, hq, v, hv, hvn, hread⟩ := hex
      rcases List.mem_cons.mp hq with hq1 | hq2
      · subst hq1
        exfalso
        cases hhead with
        | inl h => rw [h] at hv; exact Option.noConfusion hv
        | inr h =>
          rcases h v with h1 | h2 | h3
          · exact h1 hv
          · exact hvn h2
          · exact h3 hread
      · exact ⟨q, hq2, v, hv, hvn, hread⟩
    unfold Crud.validateFks
    cases hl : List.lookup col obj with
    | none =>
      exact ih (fun q hq => htabs q (List.mem_cons_of_mem _ hq))
        (hexRest (Or.inl hl))
    | some v =>
      have hretab : (Database.getTable db ft).isSome = true :=
        htabs (col, ft) (by simp)
      cases v with
      | null =>
        exact ih (fun q hq => htabs q (List.mem_cons_of_mem _ hq))
          (hexRest (Or.inr (fun w => by
            by_cases hw : List.lookup col obj = some w
            · rw [hl] at hw
              exact Or.inr (Or.inl (Option.some.inj hw).symm)
            · exact Or.inl hw)))
      | int n =>
        cases htb : Database.getTable db ft with
        | none => rw [htb] at hretab; simp at hretab
        | some tb =>
          have hread : Database.read db ft [(Crud.pkOf md ft, JsVal.int n)]
              = Except.ok (RowsStore.find tb [(Crud.pkOf md ft, JsVal.int n)]) := by
            unfold Database.read
            rw [htb]
          dsimp only
          rw [hread]
          dsimp only
          cases hemp : (RowsStore.find tb [(Crud.pkOf md ft, JsVal.int n)]).isEmpty with
          | true =>
            exact ⟨col, ft, by simp⟩
          | false =>
            rw [if_neg (by simp)]
            refine ih (fun q hq => htabs q (List.mem_cons_of_mem _ hq)) ?_
            refine hexRest (Or.inr (fun w => ?_))
            by_cases hw : List.lookup col obj = some w
            · rw [hl] at hw
              have hwv : JsVal.int n = w := Option.some.inj hw
              refine Or.inr (Or.inr ?_)
              rw [← hwv, hread]
              intro hcontr
              have hlist := Except.ok.inj hcontr
              rw [hlist] at hemp
              simp [List.isEmpty] at hemp
            · exact Or.inl hw
      | str s =>
        cases htb : Database.getTable db ft with
        | none => rw [htb] at hretab; simp at hretab
        | some tb =>
          have hread : Database.read db ft [(Crud.pkOf md ft, JsVal.str s)]
              = Except.ok (RowsStore.find tb [(Crud.pkOf md ft, JsVal.str s)]) := by
            unfold Database.read
            rw [htb]
          dsimp only
          rw [hread]
          dsimp only
          cases hemp : (RowsStore.find tb [(Crud.pkOf md ft, JsVal.str s)]).isEmpty with
          | true =>
            exact ⟨col, ft, by simp⟩
          | false =>
            rw [if_neg (by simp)]
            refine ih (fun q hq => htabs q (List.mem_cons_of_mem _ hq)) ?_
            refine hexRest (Or.inr (fun w => ?_))
            by_cases hw : List.lookup col obj = some w
            · rw [hl] at hw
              have hwv : JsVal.str s = w := Option.some.inj hw
              refine Or.inr (Or.inr ?_)
              rw [← hwv, hread]
              intro hcontr
              have hlist := Except.ok.inj hcontr
              rw [hlist] at hemp
              simp [List.isEmpty] at hemp
            · exact Or.inl hw

/-- C5 amended, create side: a failed validation leaves storage untouched
(the validation runs before `db.create`); with every declared target table
present, a non-null foreign-key value matching no target-table row makes
the create fail with a Foreign-Key-Violation and zero storage side
effects; null or absent foreign-key values always pass, so the create
reaches the storage layer. (`Crud.update` performs no such validation —
see the counterexample.) -/
theorem c5_create_fk_validation :
    ∀ (md : Metadata) (db : Database) (t : String) (obj : List (String × JsVal)),
      (∀ e, Crud.validateFks md db obj (Crud.fksOf md (normTbl t))
          = Except.error e →
        Crud.create md db t obj = (Except.error e, db))
      ∧ ((∀ p ∈ Crud.fksOf md (normTbl t),
            (Database.getTable db p.2).isSome = true) →
         (∃ p ∈ Crud.fksOf md (normTbl t), ∃ v,
            List.lookup p.1 obj = some v ∧ ¬ v = JsVal.null ∧
              Database.read db p.2 [(Crud.pkOf md p.2, v)] = Except.ok []) →
         (Crud.create md db t obj).2 = db ∧
           ∃ col ft, (Crud.create md db t obj).1
             = Except.error ("Foreign key constraint failed: " ++ ft ++ "." ++ col))
      ∧ ((∀ p ∈ Crud.fksOf md (normTbl t),
            List.lookup p.1 obj = none
              ∨ List.lookup p.1 obj = some JsVal.null) →
         Crud.create md db t obj = Database.create db (normTbl t) obj) := by
  intro md db t obj
  refine ⟨?_, ?_, ?_⟩
  · intro e he
    unfold Crud.create
    dsimp only
    rw [he]
  · intro htabs hex
    obtain ⟨col, ft, herr⟩ :=
      validateFks_dangling md db obj (Crud.fksOf md (normTbl t)) htabs hex
    unfold Crud.create
    dsimp only
    rw [herr]
    exact ⟨rfl, col, ft, rfl⟩
  · intro hnull
    have hok := validateFks_nulls md db obj (Crud.fksOf md (normTbl t)) hnull
    unfold Crud.create
    dsimp only
    rw [hok]

/-- C5 witness: creating a Games row whose `player1_id` is 999 (no such
Players row) fails with a Foreign-Key-Violation and leaves the catalog
untouched; creating one with a null `player1_id` passes validation and
reaches the storage layer. -/
theorem c5_create_fk_validation_witness :
    ((Crud.create mdPG dbPG "tblGames" [("player1_id", JsVal.int 999)]).2 = dbPG
      ∧ ∃ col ft,
          (Crud.create mdPG dbPG "tblGames" [("player1_id", JsVal.int 999)]).1
            = Except.error ("Foreign key constraint failed: " ++ ft ++ "." ++ col))
    ∧ Crud.create mdPG dbPG "tblGames" [("player1_id", JsVal.null)]
        = Database.create dbPG (normTbl "tblGames") [("player1_id", JsVal.null)] := by
  constructor
  · exact (c5_create_fk_validation mdPG dbPG "tblGames"
        [("player1_id", JsVal.int 999)]).2.1
      (by decide)
      ⟨("player1_id", "tblPlayers"), by decide, JsVal.int 999, rfl, by decide, rfl⟩
  · exact (c5_create_fk_validation mdPG dbPG "tblGames"
        [("player1_id", JsVal.null)]).2.2
      (by decide)

/-- On the mutually referencing pair of rows, the plain recursive cascade
reproduces its own call within two steps with an unchanged database, so no
recursion depth completes either root. -/
theorem crudDeleteF_cyclic_none : ∀ m, Crud.deleteF mdCyc m dbCyc "tblA" (JsVal.int 1) = none
    ∧ Crud.deleteF mdCyc m dbCyc "tblB" (JsVal.int 2) = none := by
  intro m
  induction m with
  | zero => exact ⟨rfl, rfl⟩
  | succ k ih =>
    have eIdsB : Crud.delIds (Crud.deleteF mdCyc k) "tblB" dbCyc [JsVal.int 2] = none := by
      rw [Crud.delIds, ih.2]
      rfl
    have eIdsA : Crud.delIds (Crud.deleteF mdCyc k) "tblA" dbCyc [JsVal.int 1] = none := by
      rw [Crud.delIds, ih.1]
      rfl
    have hreadB : Database.read dbCyc "tblB" [("a_id", JsVal.int 1)]
        = Except.ok [[JsVal.int 2, JsVal.int 1]] := rfl
    have hreadA : Database.read dbCyc "tblA" [("b_id", JsVal.int 2)]
        = Except.ok [[JsVal.int 1, JsVal.int 2]] := rfl
    have eFksB : Crud.delFks (Crud.deleteF mdCyc k) "tblA" (JsVal.int 1) "tblB" dbCyc
        [("a_id", "tblA")] = none := by
      rw [Crud.delFks, if_pos rfl, hreadB]
      dsimp only
      rw [show ([[JsVal.int 2, JsVal.int 1]].map (fun r => r.getD 0 JsVal.null)) = [JsVal.int 2] from rfl]
      rw [eIdsB]
      rfl
    have eFksA : Crud.delFks (Crud.deleteF mdCyc k) "tblB" (JsVal.int 2) "tblA" dbCyc
        [("b_id", "tblB")] = none := by
      rw [Crud.delFks, if_pos rfl, hreadA]
      dsimp only
      rw [show ([[JsVal.int 1, JsVal.int 2]].map (fun r => r.getD 0 JsVal.null)) = [JsVal.int 1] from rfl]
      rw [eIdsA]
      rfl
    have eTabsB1 : Crud.delTables (Crud.deleteF mdCyc k) "tblA" (JsVal.int 1) dbCyc
        [("tblB", metaBcyc)] = none := by
      rw [Crud.delTables]
      rw [show metaBcyc.foreignKeys = [("a_id", "tblA")] from rfl]
      rw [eFksB]
      rfl
    have eTabsFullA : Crud.delTables (Crud.deleteF mdCyc k) "tblA" (JsVal.int 1) dbCyc
        mdCyc = none := by
      show Crud.delTables (Crud.deleteF mdCyc k) "tblA" (JsVal.int 1) dbCyc
        (("tblA", metaAcyc) :: [("tblB", metaBcyc)]) = none
      rw [Crud.delTables]
      rw [show metaAcyc.foreignKeys = [("b_id", "tblB")] from rfl]
      rw [show Crud.delFks (Crud.deleteF mdCyc k) "tblA" (JsVal.int 1) "tblA" dbCyc
          [("b_id", "tblB")] = some (Except.ok (dbCyc, [])) from rfl]
      rw [Crud.thenDel]
      rw [eTabsB1]
    have eTabsFullB : Crud.delTables (Crud.deleteF mdCyc k) "tblB" (JsVal.int 2) dbCyc
        mdCyc = none := by
      show Crud.delTables (Crud.deleteF mdCyc k) "tblB" (JsVal.int 2) dbCyc
        (("tblA", metaAcyc) :: [("tblB", metaBcyc)]) = none
      rw [Crud.delTables]
      rw [show metaAcyc.foreignKeys = [("b_id", "tblB")] from rfl]
      rw [eFksA]
      rfl
    constructor
    · rw [Crud.deleteF]
      rw [show normTbl "tblA" = "tblA" from rfl]
      rw [eTabsFullA]
      rfl
    · rw [Crud.deleteF]
      rw [show normTbl "tblB" = "tblB" from rfl]
      rw [eTabsFullB]
      rfl

/-- C2 counterexample: with two tables whose declared foreign keys point
at each other and one row in each referencing the other, the plain
`Crud.delete` cascade (which has no visited set) does not terminate on
either root: no recursion depth completes. -/
theorem c2_cyclic_delete_diverges_counterexample :
    ¬ CrudDeleteTerminates mdCyc dbCyc "tblA" (JsVal.int 1) := by
  intro hterm
  obtain ⟨n, hn⟩ := hterm
  rw [(crudDeleteF_cyclic_none n).1] at hn
  simp at hn

namespace Adv

/-- Weakening the filter predicate cannot enlarge the filtered length. -/
theorem filter_length_mono {α : Type} (p q : α → Bool)
    (h : ∀ a, p a = true → q a = true) :
    ∀ l : List α, (l.filter p).length ≤ (l.filter q).length := by
  intro l
  induction l with
  | nil => exact Nat.le_refl 0
  | cons a l2 ih =>
    cases hp : p a with
    | true =>
      rw [List.filter_cons_of_pos hp, List.filter_cons_of_pos (h a hp)]
      exact Nat.succ_le_succ ih
    | false =>
      rw [List.filter_cons_of_neg (by rw [hp]; exact Bool.false_ne_true)]
      cases hq : q a with
      | true =>
        rw [List.filter_cons_of_pos hq]
        exact Nat.le_trans ih (Nat.le_succ _)
      | false =>
        rw [List.filter_cons_of_neg (by rw [hq]; exact Bool.false_ne_true)]
        exact ih

/-- Growing the visited set cannot increase the number of unvisited
reachable keys. -/
theorem remaining_mono (md : Metadata) (db : Database) (v v2 : List String)
    (h : v ⊆ v2) : remaining md db v2 ≤ remaining md db v := by
  unfold remaining
  refine filter_length_mono _ _ ?_ (allKeys md db)
  intro a ha
  simp only [decide_eq_true_eq] at ha ⊢
  intro hmem
  have hmem2 : a ∈ v := by simpa using hmem
  exact ha (by simpa using h hmem2)

end Adv

namespace Adv

/-- Filtering out one more present, previously kept element strictly
shrinks the filtered length. -/
theorem filter_length_strict (visited : List String) (k : String)
    (hnv : visited.contains k = false) :
    ∀ (l : List String), k ∈ l →
      (l.filter (fun x => ¬ (k :: visited).contains x)).length
        < (l.filter (fun x => ¬ visited.contains x)).length := by
  intro l
  induction l with
  | nil => intro hk; simp at hk
  | cons a l2 ih =>
    intro hk
    by_cases hak : a = k
    · subst hak
      have hdropped : (decide ¬ ((a :: visited).contains a = true)) = false := by
        simp [List.contains_cons]
      have hkept : (decide ¬ (visited.contains a = true)) = true := by
        rw [hnv]
        simp
      rw [List.filter_cons, List.filter_cons]
      simp only [hdropped, Bool.false_eq_true, if_false, hkept, if_true]
      simp only [List.length_cons]
      have hmono := filter_length_mono
        (fun x => decide (¬ ((a :: visited).contains x = true)))
        (fun x => decide (¬ (visited.contains x = true)))
        (by
          intro b hb
          rw [decide_eq_true_eq] at hb ⊢
          intro hbv
          apply hb
          rw [List.contains_cons, hbv]
          simp)
        l2
      omega
    · have hsame : (decide ¬ ((k :: visited).contains a = true))
          = (decide ¬ (visited.contains a = true)) := by
        have hc : ((k :: visited).contains a) = (visited.contains a) := by
          rw [List.contains_cons]
          have hne : (a == k) = false := by
            simp [hak]
          rw [hne]
          simp
        rw [hc]
      have hk2 : k ∈ l2 := by
        rcases List.mem_cons.mp hk with h1 | h2
        · exact absurd h1.symm hak
        · exact h2
      rw [List.filter_cons, List.filter_cons, hsame]
      cases hcase : (decide ¬ (visited.contains a = true)) with
      | true =>
        simp only [hcase, if_true]
        simp only [List.length_cons]
        exact Nat.succ_lt_succ (ih hk2)
      | false =>
        simp only [hcase, Bool.false_eq_true, if_false]
        exact ih hk2

/-- Visiting a reachable, unvisited key strictly shrinks the measure. -/
theorem remaining_cons_lt (md : Metadata) (db : Database)
    (visited : List String) (k : String) (hk : k ∈ allKeys md db)
    (hnv : visited.contains k = false) :
    remaining md db (k :: visited) < remaining md db visited := by
  unfold remaining
  exact filter_length_strict visited k hnv (allKeys md db) hk

end Adv

namespace Adv

/-- The row loop only grows the visited set. -/
theorem depsRows_grows (rec : String → JsVal → List String →
    Option (Except String (DepMap × List String))) (hg : RecGrows rec)
    (ct : String) :
    ∀ (rows : List (List JsVal)) (visited : List String) (deps : DepMap)
      (acc acc2 : List JsVal) (deps2 : DepMap) (visited2 : List String),
      depsRows rec ct visited deps acc rows
        = some (Except.ok (acc2, deps2, visited2)) → visited ⊆ visited2 := by
  intro rows
  induction rows with
  | nil =>
    intro visited deps acc acc2 deps2 visited2 h
    unfold depsRows at h
    simp only [Option.some.injEq, Except.ok.injEq, Prod.mk.injEq] at h
    rw [← h.2.2]
    exact List.Subset.refl _
  | cons row rest ih =>
    intro visited deps acc acc2 deps2 visited2 h
    unfold depsRows at h
    dsimp only at h
    cases hrec : rec ct (row.getD 0 JsVal.null) visited with
    | none => rw [hrec] at h; exact absurd h (by simp)
    | some res =>
      rw [hrec] at h
      cases res with
      | error e => exact absurd h (by simp)
      | ok pr =>
        obtain ⟨grand, v2⟩ := pr
        dsimp only at h
        exact List.Subset.trans (hg ct (row.getD 0 JsVal.null) visited grand v2 hrec)
          (ih v2 (mergeDeps deps grand) (addId acc (row.getD 0 JsVal.null))
            acc2 deps2 visited2 h)

/-- The column loop only grows the visited set. -/
theorem depsCols_grows (rec : String → JsVal → List String →
    Option (Except String (DepMap × List String))) (hg : RecGrows rec)
    (db : Database) (i : JsVal) (ct : String) :
    ∀ (cols : List String) (visited : List String) (deps : DepMap)
      (deps2 : DepMap) (visited2 : List String),
      depsCols rec db i ct visited deps cols
        = some (Except.ok (deps2, visited2)) → visited ⊆ visited2 := by
  intro cols
  induction cols with
  | nil =>
    intro visited deps deps2 visited2 h
    unfold depsCols at h
    simp only [Option.some.injEq, Except.ok.injEq, Prod.mk.injEq] at h
    rw [← h.2]
    exact List.Subset.refl _
  | cons col rest ih =>
    intro visited deps deps2 visited2 h
    unfold depsCols at h
    cases hread : Database.read db ct [(col, i)] with
    | error e => rw [hread] at h; exact absurd h (by simp)
    | ok rows =>
      rw [hread] at h
      dsimp only at h
      by_cases hemp : rows.isEmpty = true
      · rw [if_pos hemp] at h
        exact ih visited deps deps2 visited2 h
      · rw [if_neg hemp] at h
        cases hrows : depsRows rec ct visited deps ((deps.lookup ct).getD []) rows with
        | none => rw [hrows] at h; exact absurd h (by simp)
        | some res =>
          rw [hrows] at h
          cases res with
          | error e => exact absurd h (by simp)
          | ok pr =>
            obtain ⟨acc, deps3, v2⟩ := pr
            dsimp only at h
            exact List.Subset.trans
              (depsRows_grows rec hg ct rows visited deps
                ((deps.lookup ct).getD []) acc deps3 v2 hrows)
              (ih v2 (depSet deps3 ct acc) deps2 visited2 h)

/-- The table loop only grows the visited set. -/
theorem depsTables_grows (rec : String → JsVal → List String →
    Option (Except String (DepMap × List String))) (hg : RecGrows rec)
    (db : Database) (t : String) (i : JsVal) :
    ∀ (entries : List (String × Meta)) (visited : List String) (deps : DepMap)
      (deps2 : DepMap) (visited2 : List String),
      depsTables rec db t i visited deps entries
        = some (Except.ok (deps2, visited2)) → visited ⊆ visited2 := by
  intro entries
  induction entries with
  | nil =>
    intro visited deps deps2 visited2 h
    unfold depsTables at h
    simp only [Option.some.injEq, Except.ok.injEq, Prod.mk.injEq] at h
    rw [← h.2]
    exact List.Subset.refl _
  | cons entry rest ih =>
    intro visited deps deps2 visited2 h
    obtain ⟨ct, meta⟩ := entry
    unfold depsTables at h
    dsimp only at h
    cases hcols : depsCols rec db i ct visited deps
        ((meta.foreignKeys.filter (fun p => p.2 = t)).map (fun p => p.1)) with
    | none => rw [hcols] at h; exact absurd h (by simp)
    | some res =>
      rw [hcols] at h
      cases res with
      | error e => exact absurd h (by simp)
      | ok pr =>
        obtain ⟨deps3, v2⟩ := pr
        dsimp only at h
        exact List.Subset.trans
          (depsCols_grows rec hg db i ct _ visited deps deps3 v2 hcols)
          (ih v2 deps3 deps2 visited2 h)

/-- The dependent-record discovery only grows the visited set, at every
fuel. -/
theorem getDepsF_grows (md : Metadata) (db : Database) :
    ∀ (n : Nat), RecGrows (getDepsF md db n) := by
  intro n
  induction n with
  | zero =>
    intro ct ci v d v2 h
    exact absurd h (by simp [getDepsF])
  | succ k ih =>
    intro ct ci v d v2 h
    unfold getDepsF at h
    by_cases hvis : v.contains (keyOf ct ci) = true
    · rw [if_pos hvis] at h
      simp only [Option.some.injEq, Except.ok.injEq, Prod.mk.injEq] at h
      rw [← h.2]
      exact List.Subset.refl _
    · rw [if_neg hvis] at h
      have hsub := depsTables_grows (getDepsF md db k) ih db ct ci md
        (keyOf ct ci :: v) [] d v2 h
      exact fun _ hx => hsub (List.mem_cons_of_mem _ hx)

end Adv

namespace Adv

/-- The row loop completes whenever the recursion itself does on every
reachable key. -/
theorem depsRows_isSome (md : Metadata) (db : Database)
    (rec : String → JsVal → List String →
      Option (Except String (DepMap × List String)))
    (hg : RecGrows rec) (n : Nat) (ht : RecTotal md db rec n) (ct : String) :
    ∀ (rows : List (List JsVal)) (visited : List String) (deps : DepMap)
      (acc : List JsVal),
      (∀ row ∈ rows, keyOf ct (row.getD 0 JsVal.null) ∈ allKeys md db) →
      remaining md db visited < n →
      (depsRows rec ct visited deps acc rows).isSome = true := by
  intro rows
  induction rows with
  | nil => intro visited deps acc _ _; rfl
  | cons row rest ih =>
    intro visited deps acc hkeys hmu
    unfold depsRows
    dsimp only
    have hrecSome := ht ct (row.getD 0 JsVal.null) visited
      (hkeys row (by simp)) hmu
    cases hrec : rec ct (row.getD 0 JsVal.null) visited with
    | none => rw [hrec] at hrecSome; simp at hrecSome
    | some res =>
      cases res with
      | error e => rfl
      | ok pr =>
        obtain ⟨grand, v2⟩ := pr
        dsimp only
        have hsub := hg ct (row.getD 0 JsVal.null) visited grand v2 hrec
        exact ih v2 (mergeDeps deps grand) (addId acc (row.getD 0 JsVal.null))
          (fun r hr => hkeys r (List.mem_cons_of_mem _ hr))
          (lt_of_le_of_lt (remaining_mono md db visited v2 hsub) hmu)

/-- The column loop completes whenever the recursion itself does on every
reachable key; the scanned table must be a registered one so that the
rows it yields are reachable keys. -/
theorem depsCols_isSome (md : Metadata) (db : Database)
    (rec : String → JsVal → List String →
      Option (Except String (DepMap × List String)))
    (hg : RecGrows rec) (n : Nat) (ht : RecTotal md db rec n) (i : JsVal)
    (ct : String) (meta : Meta) (hmem : (ct, meta) ∈ md) :
    ∀ (cols : List String) (visited : List String) (deps : DepMap),
      remaining md db visited < n →
      (depsCols rec db i ct visited deps cols).isSome = true := by
  intro cols
  induction cols with
  | nil => intro visited deps _; rfl
  | cons col rest ih =>
    intro visited deps hmu
    unfold depsCols
    cases hread : Database.read db ct [(col, i)] with
    | error e => rfl
    | ok rows =>
      dsimp only
      by_cases hemp : rows.isEmpty = true
      · rw [if_pos hemp]
        exact ih visited deps hmu
      · rw [if_neg hemp]
        have hkeys : ∀ row ∈ rows,
            keyOf ct (row.getD 0 JsVal.null) ∈ allKeys md db := by
          intro row hr
          unfold Database.read at hread
          cases htb : Database.getTable db ct with
          | none => rw [htb] at hread; exact absurd hread (by simp)
          | some tb =>
            rw [htb] at hread
            have hrows : RowsStore.find tb [(col, i)] = rows := by
              simpa using hread
            have hdata : row ∈ tb.data := by
              rw [← hrows] at hr
              exact List.mem_of_mem_filter hr
            unfold allKeys
            refine List.mem_flatMap.mpr ⟨(ct, meta), hmem, ?_⟩
            dsimp only
            rw [htb]
            exact List.mem_map_of_mem _ hdata
        cases hrows2 : depsRows rec ct visited deps
            ((deps.lookup ct).getD []) rows with
        | none =>
          have hcontra := depsRows_isSome md db rec hg n ht ct rows visited
            deps ((deps.lookup ct).getD []) hkeys hmu
          rw [hrows2] at hcontra
          simp at hcontra
        | some res =>
          cases res with
          | error e => rfl
          | ok pr =>
            obtain ⟨acc, deps3, v2⟩ := pr
            dsimp only
            have hsub := depsRows_grows rec hg ct rows visited deps
              ((deps.lookup ct).getD []) acc deps3 v2 hrows2
            exact ih v2 (depSet deps3 ct acc)
              (lt_of_le_of_lt (remaining_mono md db visited v2 hsub) hmu)

/-- The table loop completes whenever the recursion itself does on every
reachable key. -/
theorem depsTables_isSome (md : Metadata) (db : Database)
    (rec : String → JsVal → List String →
      Option (Except String (DepMap × List String)))
    (hg : RecGrows rec) (n : Nat) (ht : RecTotal md db rec n) (t : String)
    (i : JsVal) :
    ∀ (entries : List (String × Meta)), (∀ p ∈ entries, p ∈ md) →
      ∀ (visited : List String) (deps : DepMap),
        remaining md db visited < n →
        (depsTables rec db t i visited deps entries).isSome = true := by
  intro entries
  induction entries with
  | nil => intro _ visited deps _; rfl
  | cons entry rest ih =>
    intro hsub visited deps hmu
    obtain ⟨ct, meta⟩ := entry
    unfold depsTables
    dsimp only
    cases hcols : depsCols rec db i ct visited deps
        ((meta.foreignKeys.filter (fun p => p.2 = t)).map (fun p => p.1)) with
    | none =>
      have hcontra := depsCols_isSome md db rec hg n ht i ct meta
        (hsub (ct, meta) (by simp))
        ((meta.foreignKeys.filter (fun p => p.2 = t)).map (fun p => p.1))
        visited deps hmu
      rw [hcols] at hcontra
      simp at hcontra
    | some res =>
      cases res with
      | error e => rfl
      | ok pr =>
        obtain ⟨deps3, v2⟩ := pr
        dsimp only
        have hsub2 := depsCols_grows rec hg db i ct
          ((meta.foreignKeys.filter (fun p => p.2 = t)).map (fun p => p.1))
          visited deps deps3 v2 hcols
        exact ih (fun p hp => hsub p (List.mem_cons_of_mem _ hp)) v2 deps3
          (lt_of_le_of_lt (remaining_mono md db visited v2 hsub2) hmu)

/-- Fuel sufficiency: at fuel `n` the discovery completes at every
reachable key whenever fewer than `n` reachable keys remain unvisited. -/
theorem getDepsF_total (md : Metadata) (db : Database) :
    ∀ (n : Nat), RecTotal md db (getDepsF md db n) n := by
  intro n
  induction n with
  | zero => intro ct ci v _ hmu; exact absurd hmu (by omega)
  | succ k ih =>
    intro ct ci v hkey hmu
    unfold getDepsF
    by_cases hvis : v.contains (keyOf ct ci) = true
    · rw [if_pos hvis]; rfl
    · rw [if_neg hvis]
      have hnv : v.contains (keyOf ct ci) = false := by
        cases hcv : v.contains (keyOf ct ci) with
        | false => rfl
        | true => exact absurd hcv hvis
      have hlt : remaining md db (keyOf ct ci :: v) < k := by
        have hstrict := remaining_cons_lt md db v (keyOf ct ci) hkey hnv
        omega
      exact depsTables_isSome md db (getDepsF md db k) (getDepsF_grows md db k)
        k ih ct ci md (fun p hp => hp) (keyOf ct ci :: v) [] hlt

end Adv

/-- C2 amended: the AdvancedCrudManager's dependent-record discovery — the
only unbounded recursion of its cascade delete — terminates for every
metadata registry (cyclic foreign-key graphs included), every database and
every root: the explicit visited set keyed by `table:id` never lets a row
be re-processed, so a recursion depth of one more than the number of
reachable `(table, id)` keys always completes. (The plain `Crud.delete`
recursion has no visited set and does not terminate on cyclic row
references — see the counterexample.) -/
theorem c2_advanced_discovery_terminates :
    ∀ (md : Metadata) (db : Database) (t : String) (i : JsVal),
      (Adv.getDepsF md db (Adv.remaining md db [] + 2) t i []).isSome = true := by
  intro md db t i
  rw [show Adv.remaining md db [] + 2
      = Nat.succ (Adv.remaining md db [] + 1) from rfl]
  unfold Adv.getDepsF
  rw [if_neg (by simp)]
  refine Adv.depsTables_isSome md db (Adv.getDepsF md db (Adv.remaining md db [] + 1))
    (Adv.getDepsF_grows md db _) (Adv.remaining md db [] + 1)
    (Adv.getDepsF_total md db _) t i md (fun p hp => hp) [Adv.keyOf t i] [] ?_
  have hmono := Adv.remaining_mono md db [] [Adv.keyOf t i] (by simp)
  omega

theorem Subdb_refl (db : Database) : Subdb db db := by
  intro t tb2 h
  exact ⟨tb2, h, rfl, fun _ hr => hr⟩

theorem Subdb_trans {db3 db2 db : Database} (h32 : Subdb db3 db2)
    (h21 : Subdb db2 db) : Subdb db3 db := by
  intro t tb3 h3
  obtain ⟨tb2, h2, hc32, hd32⟩ := h32 t tb3 h3
  obtain ⟨tb, h1, hc21, hd21⟩ := h21 t tb2 h2
  exact ⟨tb, h1, hc32.trans hc21, fun row hr => hd21 row (hd32 row hr)⟩

/-- A live row stays live in the larger database. -/
theorem liveRow_mono {db2 db : Database} (h : Subdb db2 db) (t : String)
    (rid : JsVal) : liveRow db2 t rid → liveRow db t rid := by
  intro ⟨tb2, htb2, row, hrow, hid⟩
  obtain ⟨tb, htb, _, hd⟩ := h t tb2 htb2
  exact ⟨tb, htb, row, hd row hrow, hid⟩

/-- Direct dependency observed in the smaller database also holds in the
larger one (rows keep their values; deletion only removes rows). -/
theorem dependsOn_mono (md : Metadata) {db2 db : Database} (h : Subdb db2 db) :
    ∀ c p, dependsOn md db2 c p → dependsOn md db c p := by
  intro c p ⟨meta, hmeta, col, hcol, tb2, htb2, row, hrow, hid, hmatch⟩
  obtain ⟨tb, htb, hcols, hd⟩ := h c.1 tb2 htb2
  exact ⟨meta, hmeta, col, hcol, tb, htb, row, hd row hrow, hid,
    hcols ▸ hmatch⟩

/-- Looking up a table after `setTable`: the targeted normalized name maps
to the new state (when present), all others are untouched. -/
theorem getTable_setTable (t : String) (tb : RowsState) (t2 : String) :
    ∀ (db : Database),
      Database.getTable (Database.setTable db t tb) t2
        = if normTbl t2 = normTbl t
          then (Database.getTable db t2).map (fun _ => tb)
          else Database.getTable db t2 := by
  intro db
  unfold Database.getTable Database.setTable
  induction db with
  | nil =>
    by_cases h : normTbl t2 = normTbl t <;> simp [List.lookup, h]
  | cons p rest ih =>
    rcases p with ⟨k, ktb⟩
    rw [List.map_cons]
    by_cases hk : (k, ktb).1 = normTbl t
    · have hentry : (if (k, ktb).1 = normTbl t then ((k, ktb).1, tb) else (k, ktb))
          = (k, tb) := by rw [if_pos hk]
      rw [hentry]
      by_cases h2 : normTbl t2 = normTbl t
      · have hbeq : (normTbl t2 == k) = true := beq_iff_eq.mpr (by rw [h2]; exact hk.symm)
        simp only [List.lookup, hbeq, if_pos h2]
        rfl
      · have hbeq : (normTbl t2 == k) = false :=
          beq_false_of_ne (fun hh => h2 (hh.trans hk))
        simp only [List.lookup, hbeq, if_neg h2]
        have ih2 := ih
        rw [if_neg h2] at ih2
        exact ih2
    · have hentry : (if (k, ktb).1 = normTbl t then ((k, ktb).1, tb) else (k, ktb))
          = (k, ktb) := by rw [if_neg hk]
      rw [hentry]
      by_cases h2 : normTbl t2 = k
      · have hne : ¬ normTbl t2 = normTbl t := fun hh => hk (by rw [← h2]; exact hh)
        have hbeq : (normTbl t2 == k) = true := beq_iff_eq.mpr h2
        simp only [List.lookup, hbeq, if_neg hne]
      · have hbeq : (normTbl t2 == k) = false := beq_false_of_ne h2
        simp only [List.lookup, hbeq]
        exact ih

/-- `Rows.delete` preserves the column list. -/
theorem rowsDelete_columns (s : RowsState) (i : JsVal) :
    (RowsStore.delete s i).columns = s.columns := by
  unfold RowsStore.delete
  cases RowsStore.get s i <;> rfl

/-- `Rows.delete` keeps a subset of the rows. -/
theorem rowsDelete_data_subset (s : RowsState) (i : JsVal) :
    ∀ row ∈ (RowsStore.delete s i).data, row ∈ s.data := by
  unfold RowsStore.delete
  cases RowsStore.get s i with
  | none => exact fun row hr => hr
  | some r => exact fun row hr => List.mem_of_mem_filter hr

/-- `Rows.delete` only removes rows carrying the deleted identity. -/
theorem rowsDelete_keeps_other (s : RowsState) (i : JsVal) (row : List JsVal)
    (hrow : row ∈ s.data) (hne : ¬ row.getD 0 JsVal.null = i) :
    row ∈ (RowsStore.delete s i).data := by
  unfold RowsStore.delete
  cases RowsStore.get s i with
  | none => exact hrow
  | some r =>
    refine List.mem_filter.mpr ⟨hrow, ?_⟩
    simpa using hne

/-- `Database.delete` shrinks the database. -/
theorem dbDelete_shrinks (db : Database) (t : String) (i : JsVal) :
    Subdb (Database.delete db t i).2 db := by
  unfold Database.delete
  cases htb : Database.getTable db t with
  | none => exact Subdb_refl db
  | some tb =>
    intro t2 tb2 h2
    rw [getTable_setTable] at h2
    by_cases hcase : normTbl t2 = normTbl t
    · rw [if_pos hcase] at h2
      have htb2 : Database.getTable db t2 = some tb := by
        unfold Database.getTable at htb ⊢
        rw [hcase]
        exact htb
      rw [htb2] at h2
      have h3 : tb2 = RowsStore.delete tb i := by
        have h4 : some (RowsStore.delete tb i) = some tb2 := h2
        exact (Option.some.inj h4).symm
      subst h3
      exact ⟨tb, htb2, rowsDelete_columns tb i, rowsDelete_data_subset tb i⟩
    · rw [if_neg hcase] at h2
      exact ⟨tb2, h2, rfl, fun _ hr => hr⟩

/-- A row alive before but dead after `Database.delete` is a row of the
deleted table carrying the deleted identity. -/
theorem dbDelete_removed (db : Database) (t : String) (i : JsVal)
    (tb : String) (rid : JsVal) (hnorm : normTbl tb = tb)
    (hlive : liveRow db tb rid)
    (hdead : ¬ liveRow (Database.delete db t i).2 tb rid) :
    tb = normTbl t ∧ rid = i := by
  unfold Database.delete at hdead
  cases htb : Database.getTable db t with
  | none => rw [htb] at hdead; exact absurd hlive hdead
  | some tbl =>
    rw [htb] at hdead
    dsimp only at hdead
    by_cases hcase : normTbl tb = normTbl t
    · constructor
      · rw [← hnorm]; exact hcase
      · obtain ⟨tbx, htbx, row, hrow, hid⟩ := hlive
        have htbeq : tbx = tbl := by
          unfold Database.getTable at htbx htb
          rw [hcase] at htbx
          rw [htbx] at htb
          exact Option.some.inj htb
        subst htbeq
        by_cases hrid : rid = i
        · exact hrid
        · exfalso
          apply hdead
          refine ⟨RowsStore.delete tbx i, ?_, row, ?_, hid⟩
          · rw [getTable_setTable, if_pos hcase]
            unfold Database.getTable at htbx ⊢
            rw [htbx]
            rfl
          · exact rowsDelete_keeps_other tbx i row hrow (by rw [hid]; exact hrid)
    · exfalso
      apply hdead
      obtain ⟨tbx, htbx, row, hrow, hid⟩ := hlive
      refine ⟨tbx, ?_, row, hrow, hid⟩
      rw [getTable_setTable, if_neg hcase]
      exact htbx

/-- Normalization is idempotent. -/
theorem listIsPrefixOf_append (l m : List Char) : l.isPrefixOf (l ++ m) = true := by
  exact List.isPrefixOf_iff_prefix.mpr (List.prefix_append l m)

theorem normTbl_idem (x : String) : normTbl (normTbl x) = normTbl x := by
  by_cases hs : jsStartsWith x "tbl" = true
  · have h1 : normTbl x = x := by unfold normTbl; rw [if_pos hs]
    rw [h1]
    exact h1
  · have h1 : normTbl x = "tbl" ++ x := by unfold normTbl; rw [if_neg hs]
    rw [h1]
    have hpre : jsStartsWith ("tbl" ++ x) "tbl" = true := by
      unfold jsStartsWith
      have hdata : ("tbl" ++ x).data = "tbl".data ++ x.data := by
        rfl
      rw [hdata]
      exact listIsPrefixOf_append "tbl".data x.data
    unfold normTbl
    rw [if_pos hpre]

/-- In a registry with pairwise distinct keys, membership determines the
lookup. -/
theorem lookup_of_mem_nodup :
    ∀ (md : List (String × Meta)) (k : String) (m : Meta),
      (md.map Prod.fst).Nodup → (k, m) ∈ md → List.lookup k md = some m := by
  intro md
  induction md with
  | nil => intro k m _ hmem; simp at hmem
  | cons p rest ih =>
    intro k m hnd hmem
    rcases p with ⟨k0, m0⟩
    rcases List.mem_cons.mp hmem with h1 | h2
    · have hk : k = k0 := congrArg Prod.fst h1
      have hm : m = m0 := congrArg Prod.snd h1
      subst hk
      subst hm
      have hbeq : (k == k) = true := beq_self_eq_true k
      simp [List.lookup, hbeq]
    · have hk0 : ¬ k = k0 := by
        intro he
        subst he
        rw [List.map_cons] at hnd
        have hnotin := (List.nodup_cons.mp hnd).1
        exact hnotin (by
          have : (k, m).1 ∈ rest.map Prod.fst := List.mem_map_of_mem _ h2
          simpa using this)
      have hbeq : (k == k0) = false := beq_false_of_ne hk0
      simp only [List.lookup, hbeq]
      rw [List.map_cons] at hnd
      exact ih k m (List.nodup_cons.mp hnd).2 h2

/-- The child-id loop removes only rows transitively dependent on one of
the scanned children. -/
theorem delIds_sound (md : Metadata)
    (rec : Database → String → JsVal → Crud.DelRes) (hs : RecSound md rec)
    (tname : String) :
    ∀ (ids : List JsVal) (db db2 : Database) (log : Crud.Log),
      Crud.delIds rec tname db ids = some (Except.ok (db2, log)) →
      Subdb db2 db ∧
        ∀ tb rid, normTbl tb = tb → liveRow db tb rid → ¬ liveRow db2 tb rid →
          ∃ cid ∈ ids,
            Relation.ReflTransGen (dependsOn md db) (tb, rid)
              (normTbl tname, cid) := by
  intro ids
  induction ids with
  | nil =>
    intro db db2 log h
    unfold Crud.delIds at h
    simp only [Option.some.injEq, Except.ok.injEq, Prod.mk.injEq] at h
    refine ⟨by rw [← h.1]; exact Subdb_refl db, ?_⟩
    intro tb rid _ hlive hdead
    rw [← h.1] at hdead
    exact absurd hlive hdead
  | cons cid rest ih =>
    intro db db2 log h
    unfold Crud.delIds at h
    unfold Crud.thenDel at h
    cases hrec : rec db tname cid with
    | none => rw [hrec] at h; exact absurd h (by simp)
    | some res =>
      rw [hrec] at h
      cases res with
      | error e => exact absurd h (by simp)
      | ok pr =>
        obtain ⟨dbm, log1⟩ := pr
        dsimp only at h
        cases hrest : Crud.delIds rec tname dbm rest with
        | none => rw [hrest] at h; exact absurd h (by simp)
        | some res2 =>
          rw [hrest] at h
          cases res2 with
          | error e => exact absurd h (by simp)
          | ok pr2 =>
            obtain ⟨db3, log2⟩ := pr2
            dsimp only at h
            simp only [Option.some.injEq, Except.ok.injEq, Prod.mk.injEq] at h
            obtain ⟨hdb, _⟩ := h
            subst hdb
            have hsound1 := hs db tname cid dbm log1 hrec
            have hsound2 := ih dbm db3 log2 hrest
            refine ⟨Subdb_trans hsound2.1 hsound1.1, ?_⟩
            intro tb rid hn hlive hdead
            by_cases hmid : liveRow dbm tb rid
            · obtain ⟨cid2, hcid2, hcl⟩ := hsound2.2 tb rid hn hmid hdead
              exact ⟨cid2, List.mem_cons_of_mem _ hcid2,
                Relation.ReflTransGen.mono (dependsOn_mono md hsound1.1) hcl⟩
            · exact ⟨cid, by simp, hsound1.2 tb rid hn hlive hmid⟩

/-- The foreign-key loop removes only rows transitively dependent on the
deleted parent `(t, i)`. -/
theorem delFks_sound (md : Metadata)
    (rec : Database → String → JsVal → Crud.DelRes) (hs : RecSound md rec)
    (t : String) (i : JsVal) (tname : String)
    (hnameNorm : normTbl tname = tname) (meta : Meta)
    (hlookup : List.lookup tname md = some meta) :
    ∀ (fks : List (String × String)), (∀ q ∈ fks, q ∈ meta.foreignKeys) →
      ∀ (db db2 : Database) (log : Crud.Log),
        Crud.delFks rec t i tname db fks = some (Except.ok (db2, log)) →
        Subdb db2 db ∧
          ∀ tb rid, normTbl tb = tb → liveRow db tb rid →
            ¬ liveRow db2 tb rid →
            Relation.ReflTransGen (dependsOn md db) (tb, rid) (t, i) := by
  intro fks
  induction fks with
  | nil =>
    intro _ db db2 log h
    unfold Crud.delFks at h
    simp only [Option.some.injEq, Except.ok.injEq, Prod.mk.injEq] at h
    refine ⟨by rw [← h.1]; exact Subdb_refl db, ?_⟩
    intro tb rid _ hlive hdead
    rw [← h.1] at hdead
    exact absurd hlive hdead
  | cons q rest ih =>
    rcases q with ⟨col, target⟩
    intro hq db db2 log h
    unfold Crud.delFks at h
    by_cases htgt : target = t
    · rw [if_pos htgt] at h
      cases hread : Database.read db tname [(col, i)] with
      | error e => rw [hread] at h; exact absurd h (by simp)
      | ok rows =>
        rw [hread] at h
        unfold Crud.thenDel at h
        dsimp only at h
        cases hids : Crud.delIds rec tname db
            (rows.map (fun r => r.getD 0 JsVal.null)) with
        | none => rw [hids] at h; exact absurd h (by simp)
        | some res =>
          rw [hids] at h
          cases res with
          | error e => exact absurd h (by simp)
          | ok pr =>
            obtain ⟨dbm, log1⟩ := pr
            dsimp only at h
            cases hrest : Crud.delFks rec t i tname dbm rest with
            | none => rw [hrest] at h; exact absurd h (by simp)
            | some res2 =>
              rw [hrest] at h
              cases res2 with
              | error e => exact absurd h (by simp)
              | ok pr2 =>
                obtain ⟨db3, log2⟩ := pr2
                dsimp only at h
                simp only [Option.some.injEq, Except.ok.injEq,
                  Prod.mk.injEq] at h
                obtain ⟨hdb, _⟩ := h
                subst hdb
                have hI := delIds_sound md rec hs tname
                  (rows.map (fun r => r.getD 0 JsVal.null)) db dbm log1 hids
                have hR := ih
                  (fun q2 hq2 => hq q2 (List.mem_cons_of_mem _ hq2))
                  dbm db3 log2 hrest
                refine ⟨Subdb_trans hR.1 hI.1, ?_⟩
                intro tb rid hn hlive hdead
                by_cases hmid : liveRow dbm tb rid
                · have hcl := hR.2 tb rid hn hmid hdead
                  exact Relation.ReflTransGen.mono
                    (dependsOn_mono md hI.1) hcl
                · obtain ⟨cid, hcidmem, hcl⟩ := hI.2 tb rid hn hlive hmid
                  rw [hnameNorm] at hcl
                  obtain ⟨row0, hrow0, hcid⟩ := List.mem_map.mp hcidmem
                  have hgt : ∃ tbl, Database.getTable db tname = some tbl ∧
                      rows = RowsStore.find tbl [(col, i)] := by
                    unfold Database.read at hread
                    cases hgt0 : Database.getTable db tname with
                    | none => rw [hgt0] at hread; exact absurd hread (by simp)
                    | some tbl =>
                      rw [hgt0] at hread
                      exact ⟨tbl, rfl, (Except.ok.inj hread).symm⟩
                  obtain ⟨tbl, htbl, hrows⟩ := hgt
                  rw [hrows] at hrow0
                  unfold RowsStore.find at hrow0
                  have hfm := List.mem_filter.mp hrow0
                  have hedge : dependsOn md db (tname, cid) (t, i) := by
                    refine ⟨meta, hlookup, col, ?_, tbl, htbl, row0,
                      hfm.1, hcid, hfm.2⟩
                    have hmem := hq (col, target) (List.mem_cons_self _ _)
                    rw [htgt] at hmem
                    exact hmem
                  exact Relation.ReflTransGen.tail hcl hedge
    · rw [if_neg htgt] at h
      exact ih (fun q2 hq2 => hq q2 (List.mem_cons_of_mem _ hq2)) db db2 log h

/-- The per-table metadata loop removes only rows transitively dependent
on the deleted parent `(t, i)`. -/
theorem delTables_sound (md : Metadata)
    (hnorm : ∀ p ∈ md, normTbl p.1 = p.1)
    (hnodup : (md.map Prod.fst).Nodup)
    (rec : Database → String → JsVal → Crud.DelRes) (hs : RecSound md rec)
    (t : String) (i : JsVal) :
    ∀ (entries : List (String × Meta)), (∀ p ∈ entries, p ∈ md) →
      ∀ (db db2 : Database) (log : Crud.Log),
        Crud.delTables rec t i db entries = some (Except.ok (db2, log)) →
        Subdb db2 db ∧
          ∀ tb rid, normTbl tb = tb → liveRow db tb rid →
            ¬ liveRow db2 tb rid →
            Relation.ReflTransGen (dependsOn md db) (tb, rid) (t, i) := by
  intro entries
  induction entries with
  | nil =>
    intro _ db db2 log h
    unfold Crud.delTables at h
    simp only [Option.some.injEq, Except.ok.injEq, Prod.mk.injEq] at h
    refine ⟨by rw [← h.1]; exact Subdb_refl db, ?_⟩
    intro tb rid _ hlive hdead
    rw [← h.1] at hdead
    exact absurd hlive hdead
  | cons q rest ih =>
    rcases q with ⟨tname, meta⟩
    intro hsub db db2 log h
    unfold Crud.delTables at h
    unfold Crud.thenDel at h
    cases hfks : Crud.delFks rec t i tname db meta.foreignKeys with
    | none => rw [hfks] at h; exact absurd h (by simp)
    | some res =>
      rw [hfks] at h
      cases res with
      | error e => exact absurd h (by simp)
      | ok pr =>
        obtain ⟨dbm, log1⟩ := pr
        dsimp only at h
        cases hrest : Crud.delTables rec t i dbm rest with
        | none => rw [hrest] at h; exact absurd h (by simp)
        | some res2 =>
          rw [hrest] at h
          cases res2 with
          | error e => exact absurd h (by simp)
          | ok pr2 =>
            obtain ⟨db3, log2⟩ := pr2
            dsimp only at h
            simp only [Option.some.injEq, Except.ok.injEq,
              Prod.mk.injEq] at h
            obtain ⟨hdb, _⟩ := h
            subst hdb
            have hmemmd : (tname, meta) ∈ md :=
              hsub (tname, meta) (List.mem_cons_self _ _)
            have hF := delFks_sound md rec hs t i tname
              (hnorm (tname, meta) hmemmd) meta
              (lookup_of_mem_nodup md tname meta hnodup hmemmd)
              meta.foreignKeys (fun q2 hq2 => hq2) db dbm log1 hfks
            have hR := ih
              (fun p hp => hsub p (List.mem_cons_of_mem _ hp))
              dbm db3 log2 hrest
            refine ⟨Subdb_trans hR.1 hF.1, ?_⟩
            intro tb rid hn hlive hdead
            by_cases hmid : liveRow dbm tb rid
            · exact Relation.ReflTransGen.mono (dependsOn_mono md hF.1)
                (hR.2 tb rid hn hmid hdead)
            · exact hF.2 tb rid hn hlive hmid

/-- `Crud.delete` at any fuel is a sound cascade: every row it removes is
transitively dependent on the deleted root. -/
theorem deleteF_sound (md : Metadata)
    (hnorm : ∀ p ∈ md, normTbl p.1 = p.1)
    (hnodup : (md.map Prod.fst).Nodup) :
    ∀ (n : Nat), RecSound md (Crud.deleteF md n) := by
  intro n
  induction n with
  | zero =>
    intro db t i db2 log h
    exact absurd h (by simp [Crud.deleteF])
  | succ k ih =>
    intro db t i db2 log h
    unfold Crud.deleteF at h
    dsimp only at h
    unfold Crud.thenDel at h
    cases htabs : Crud.delTables (Crud.deleteF md k) (normTbl t) i db md with
    | none => rw [htabs] at h; exact absurd h (by simp)
    | some res =>
      rw [htabs] at h
      cases res with
      | error e => exact absurd h (by simp)
      | ok pr =>
        obtain ⟨dbm, log1⟩ := pr
        dsimp only at h
        cases hdel : Database.delete dbm (normTbl t) i with
        | mk r dbf =>
          rw [hdel] at h
          cases r with
          | error e => exact absurd h (by simp)
          | ok u =>
            dsimp only at h
            simp only [Option.some.injEq, Except.ok.injEq,
              Prod.mk.injEq] at h
            obtain ⟨hdb, _⟩ := h
            subst hdb
            have hT := delTables_sound md hnorm hnodup
              (Crud.deleteF md k) ih (normTbl t) i md
              (fun p hp => hp) db dbm log1 htabs
            have hshrink : Subdb dbf dbm := by
              have hsh := dbDelete_shrinks dbm (normTbl t) i
              rw [hdel] at hsh
              exact hsh
            refine ⟨Subdb_trans hshrink hT.1, ?_⟩
            intro tb rid hn hlive hdead
            by_cases hmid : liveRow dbm tb rid
            · have hdead2 :
                  ¬ liveRow (Database.delete dbm (normTbl t) i).2 tb rid := by
                rw [hdel]
                exact hdead
              have hri := dbDelete_removed dbm (normTbl t) i tb rid hn
                hmid hdead2
              rw [show tb = normTbl t from hri.1.trans (normTbl_idem t),
                hri.2]
            · exact hT.2 tb rid hn hlive hmid

/-- A completed cascade delete logs the root row's own deletion last. -/
theorem deleteF_root_last (md : Metadata) (n : Nat) (db : Database)
    (t : String) (i : JsVal) (db2 : Database) (log : Crud.Log)
    (h : Crud.deleteF md n db t i = some (Except.ok (db2, log))) :
    ∃ log1, log = log1 ++ [(normTbl t, i)] := by
  cases n with
  | zero => exact absurd h (by simp [Crud.deleteF])
  | succ k =>
    unfold Crud.deleteF at h
    dsimp only at h
    unfold Crud.thenDel at h
    cases htabs : Crud.delTables (Crud.deleteF md k) (normTbl t) i db md with
    | none => rw [htabs] at h; exact absurd h (by simp)
    | some res =>
      rw [htabs] at h
      cases res with
      | error e => exact absurd h (by simp)
      | ok pr =>
        obtain ⟨dbm, log1⟩ := pr
        dsimp only at h
        cases hdel : Database.delete dbm (normTbl t) i with
        | mk r dbf =>
          rw [hdel] at h
          cases r with
          | error e => exact absurd h (by simp)
          | ok u =>
            dsimp only at h
            simp only [Option.some.injEq, Except.ok.injEq,
              Prod.mk.injEq] at h
            exact ⟨log1, h.2.symm⟩

/-- Looking a table up under its normalized name is the same lookup. -/
theorem getTable_norm (db : Database) (t : String) :
    Database.getTable db (normTbl t) = Database.getTable db t := by
  unfold Database.getTable
  rw [normTbl_idem]

/-- `Rows.delete` leaves no row carrying the deleted identity. -/
theorem rowsDelete_kills (s : RowsState) (i : JsVal) :
    ∀ row ∈ (RowsStore.delete s i).data, ¬ row.getD 0 JsVal.null = i := by
  unfold RowsStore.delete
  cases hg : RowsStore.get s i with
  | none =>
    intro row hrow
    unfold RowsStore.get at hg
    have hall := List.find?_eq_none.mp hg row hrow
    simpa using hall
  | some r =>
    intro row hrow
    have hp := (List.mem_filter.mp hrow).2
    simpa using hp

/-- A successful `Database.delete` leaves no row with the deleted
identity in the deleted table. -/
theorem dbDelete_kills (db : Database) (t : String) (i : JsVal)
    (u : Unit) (dbf : Database)
    (h : Database.delete db t i = (Except.ok u, dbf)) :
    ¬ liveRow dbf t i := by
  unfold Database.delete at h
  cases htb : Database.getTable db t with
  | none => rw [htb] at h; exact absurd h (by simp)
  | some tb =>
    rw [htb] at h
    have hdbf : dbf = Database.setTable db t (RowsStore.delete tb i) :=
      (congrArg Prod.snd h).symm
    subst hdbf
    intro hlive
    obtain ⟨tbf, htbf, row, hrow, hid⟩ := hlive
    rw [getTable_setTable, if_pos rfl, htb] at htbf
    have htbf2 : tbf = RowsStore.delete tb i := by
      have h4 : some (RowsStore.delete tb i) = some tbf := htbf
      exact (Option.some.inj h4).symm
    subst htbf2
    exact rowsDelete_kills tb i row hrow hid

/-- `Database.delete` removes rows in whole-identity batches. -/
theorem dbDelete_batch (db : Database) (t : String) (i : JsVal) :
    Batch (Database.delete db t i).2 db := by
  unfold Database.delete
  cases htb : Database.getTable db t with
  | none =>
    intro tname tb tb2 h1 h2 row hrow hnot row2 _ _
    rw [h1] at h2
    have heq : tb = tb2 := Option.some.inj h2
    subst heq
    exact absurd hrow hnot
  | some tb0 =>
    intro tname tb tb2 h1 h2 row hrow hnot row2 hrow2 hid
    rw [getTable_setTable] at h2
    by_cases hc : normTbl tname = normTbl t
    · rw [if_pos hc] at h2
      have htbeq : tb = tb0 := by
        have e1 : Database.getTable db tname = Database.getTable db t := by
          unfold Database.getTable
          rw [hc]
        rw [e1, htb] at h1
        exact (Option.some.inj h1).symm
      subst htbeq
      rw [h1] at h2
      have htb2 : tb2 = RowsStore.delete tb i := by
        have h4 : some (RowsStore.delete tb i) = some tb2 := h2
        exact (Option.some.inj h4).symm
      subst htb2
      have hidrow : row.getD 0 JsVal.null = i := by
        by_contra hne
        exact hnot (rowsDelete_keeps_other tb i row hrow hne)
      intro hmem2
      exact rowsDelete_kills tb i row2 hmem2 (hid.trans hidrow)
    · rw [if_neg hc] at h2
      rw [h1] at h2
      have heq : tb = tb2 := Option.some.inj h2
      subst heq
      exact absurd hrow hnot

/-- `Batch` of a database with itself. -/
theorem Batch_self (db : Database) : Batch db db := by
  intro tname tb tb2 h1 h2 row hrow hnot _ _ _
  rw [h1] at h2
  have heq : tb = tb2 := Option.some.inj h2
  subst heq
  exact absurd hrow hnot

/-- `Batch` composes along a shrinking chain. -/
theorem Batch_trans {db dbm db2 : Database}
    (hB1 : Batch dbm db) (hS2 : Subdb db2 dbm) (hB2 : Batch db2 dbm) :
    Batch db2 db := by
  intro tname tb tb2 htb htb2 row hrow hnot row2 hrow2 hid
  obtain ⟨tbm, htbm, _, hsubm⟩ := hS2 tname tb2 htb2
  by_cases hmid : row ∈ tbm.data
  · have hrow2m : row2 ∈ tbm.data := by
      by_contra hno
      exact hB1 tname tb tbm htb htbm row2 hrow2 hno row hrow hid.symm hmid
    exact hB2 tname tbm tb2 htbm htb2 row hmid hnot row2 hrow2m hid
  · have hrow2m : row2 ∉ tbm.data :=
      hB1 tname tb tbm htb htbm row hrow hmid row2 hrow2 hid
    intro hmem2
    exact hrow2m (hsubm row2 hmem2)

/-- `GoneClosed` of a database with itself. -/
theorem GoneClosed_self (md : Metadata) (db : Database) :
    GoneClosed md db db := by
  intro p _ hlive hdead
  exact absurd hlive hdead

/-- `GoneClosed` composes along a shrinking chain. -/
theorem GoneClosed_trans {md : Metadata} {db dbm db2 : Database}
    (hS2 : Subdb db2 dbm) (hG1 : GoneClosed md db dbm)
    (hG2 : GoneClosed md dbm db2) : GoneClosed md db db2 := by
  intro p hn hlive hdead c hc hedge
  by_cases hm : liveRow dbm p.1 p.2
  · exact hG2 p hn hm hdead c hc hedge
  · exact hG1 p hn hlive hm c (liveRow_mono hS2 c.1 c.2 hc)
      (dependsOn_mono md hS2 c p hedge)

/-- Replaying a concatenated log replays the two halves in turn. -/
theorem replay_append (db : Database) (l1 l2 : Crud.Log) :
    replay db (l1 ++ l2) = replay (replay db l1) l2 := by
  simp [replay, List.foldl_append]

/-- The empty log is trivially ordered. -/
theorem LogOrdered_nil (md : Metadata) (db : Database) :
    LogOrdered md db [] := by
  intro k hk
  exact absurd hk (by simp)

/-- A one-entry log is ordered when nothing live depends on the entry. -/
theorem LogOrdered_single (md : Metadata) (dbm : Database)
    (e : String × JsVal)
    (h : ∀ c : String × JsVal, liveRow dbm c.1 c.2 →
      ¬ dependsOn md dbm c e) : LogOrdered md dbm [e] := by
  intro k hk c hc
  have hk0 : k = 0 := by
    simp at hk
    omega
  subst hk0
  exact h c hc

/-- Ordered logs concatenate when the second starts from the first's
replay. -/
theorem LogOrdered_append {md : Metadata} {db dbm : Database}
    {l1 l2 : Crud.Log} (h1 : LogOrdered md db l1)
    (hrep : replay db l1 = dbm) (h2 : LogOrdered md dbm l2) :
    LogOrdered md db (l1 ++ l2) := by
  intro k hk c
  by_cases hlt : k < l1.length
  · have htake : (l1 ++ l2).take k = l1.take k :=
      List.take_append_of_le_length (le_of_lt hlt)
    have hget : (l1 ++ l2).get ⟨k, hk⟩ = l1.get ⟨k, hlt⟩ := by
      simp [List.get_eq_getElem, List.getElem_append_left hlt]
    rw [htake, hget]
    exact h1 k hlt c
  · have hge : l1.length ≤ k := le_of_not_lt hlt
    have hk2 : k - l1.length < l2.length := by
      have hlen := hk
      rw [List.length_append] at hlen
      omega
    have htake : (l1 ++ l2).take k = l1 ++ l2.take (k - l1.length) := by
      rw [List.take_append_eq_append_take, List.take_of_length_le hge]
    have hget : (l1 ++ l2).get ⟨k, hk⟩ = l2.get ⟨k - l1.length, hk2⟩ := by
      simp [List.get_eq_getElem, List.getElem_append_right hge]
    rw [htake, hget, replay_append, hrep]
    exact h2 (k - l1.length) hk2 c

/-- A table with no row matching a filter keeps that property as the
database shrinks. -/
theorem matchFree_mono {db2 db1 : Database} (h : Subdb db2 db1)
    (tname col : String) (i : JsVal)
    (hfree : ∀ tb1, Database.getTable db1 tname = some tb1 →
      ∀ row ∈ tb1.data,
        ¬ RowsStore.matchesFilter tb1.columns [(col, i)] row = true) :
    ∀ tb2, Database.getTable db2 tname = some tb2 →
      ∀ row ∈ tb2.data,
        ¬ RowsStore.matchesFilter tb2.columns [(col, i)] row = true := by
  intro tb2 htb2 row hrow hm
  obtain ⟨tb1, htb1, hcols, hsub⟩ := h tname tb2 htb2
  rw [hcols] at hm
  exact hfree tb1 htb1 row (hsub row hrow) hm

/-- A successful registry lookup names a member of the registry. -/
theorem mem_of_lookup :
    ∀ (md : Metadata) (k : String) (m : Meta),
      List.lookup k md = some m → (k, m) ∈ md := by
  intro md
  induction md with
  | nil => intro k m h; simp [List.lookup] at h
  | cons p rest ih =>
    intro k m h
    rcases p with ⟨k0, m0⟩
    by_cases he : k = k0
    · subst he
      have hbeq : (k == k) = true := beq_self_eq_true k
      simp only [List.lookup, hbeq] at h
      have hm : m0 = m := Option.some.inj h
      subst hm
      exact List.mem_cons_self _ _
    · have hbeq : (k == k0) = false := beq_false_of_ne he
      simp only [List.lookup, hbeq] at h
      exact List.mem_cons_of_mem _ (ih k m h)

/-- Full invariant bundle for the child-id loop: shrinks in batches,
leaves no removed pair with dependents, equals its log's replay, stays
ordered, and kills every scanned child id. -/
theorem delIds_full (md : Metadata)
    (rec : Database → String → JsVal → Crud.DelRes) (hr : RecFull md rec)
    (tname : String) :
    ∀ (ids : List JsVal) (db db2 : Database) (log : Crud.Log),
      Crud.delIds rec tname db ids = some (Except.ok (db2, log)) →
      Subdb db2 db ∧ Batch db2 db ∧ GoneClosed md db db2 ∧
        db2 = replay db log ∧ LogOrdered md db log ∧
        ∀ cid ∈ ids, ¬ liveRow db2 (normTbl tname) cid := by
  intro ids
  induction ids with
  | nil =>
    intro db db2 log h
    unfold Crud.delIds at h
    simp only [Option.some.injEq, Except.ok.injEq, Prod.mk.injEq] at h
    obtain ⟨hdb, hlog⟩ := h
    subst hdb
    subst hlog
    refine ⟨Subdb_refl db, Batch_self db, GoneClosed_self md db, rfl,
      LogOrdered_nil md db, ?_⟩
    intro cid hcid
    exact absurd hcid (List.not_mem_nil cid)
  | cons cid rest ih =>
    intro db db2 log h
    unfold Crud.delIds at h
    unfold Crud.thenDel at h
    cases hrec : rec db tname cid with
    | none => rw [hrec] at h; exact absurd h (by simp)
    | some res =>
      rw [hrec] at h
      cases res with
      | error e => exact absurd h (by simp)
      | ok pr =>
        obtain ⟨dbm, log1⟩ := pr
        dsimp only at h
        cases hrest : Crud.delIds rec tname dbm rest with
        | none => rw [hrest] at h; exact absurd h (by simp)
        | some res2 =>
          rw [hrest] at h
          cases res2 with
          | error e => exact absurd h (by simp)
          | ok pr2 =>
            obtain ⟨db3, log2⟩ := pr2
            dsimp only at h
            simp only [Option.some.injEq, Except.ok.injEq,
              Prod.mk.injEq] at h
            obtain ⟨hdb, hlog⟩ := h
            subst hdb
            subst hlog
            obtain ⟨S1, B1, G1, R1, L1, K1, _⟩ :=
              hr db tname cid dbm log1 hrec
            obtain ⟨S2, B2, G2, R2, L2, K2⟩ := ih dbm db3 log2 hrest
            refine ⟨Subdb_trans S2 S1, Batch_trans B1 S2 B2,
              GoneClosed_trans S2 G1 G2, ?_, ?_, ?_⟩
            · rw [replay_append, ← R1]
              exact R2
            · exact LogOrdered_append L1 R1.symm L2
            · intro c hc
              rcases List.mem_cons.mp hc with h1 | h2
              · subst h1
                intro hlive3
                exact K1 (liveRow_mono S2 (normTbl tname) c hlive3)
              · exact K2 c h2

/-- Full invariant bundle for the foreign-key loop: additionally, for
every processed foreign-key column targeting the deleted table, no live
row of the scanning table still matches the `{col: id}` read filter. -/
theorem delFks_full (md : Metadata)
    (rec : Database → String → JsVal → Crud.DelRes) (hr : RecFull md rec)
    (t : String) (i : JsVal) (tname : String) :
    ∀ (fks : List (String × String)) (db db2 : Database) (log : Crud.Log),
      Crud.delFks rec t i tname db fks = some (Except.ok (db2, log)) →
      Subdb db2 db ∧ Batch db2 db ∧ GoneClosed md db db2 ∧
        db2 = replay db log ∧ LogOrdered md db log ∧
        ∀ col target, (col, target) ∈ fks → target = t →
          ∀ tb2, Database.getTable db2 tname = some tb2 →
            ∀ row ∈ tb2.data,
              ¬ RowsStore.matchesFilter tb2.columns [(col, i)] row
                = true := by
  intro fks
  induction fks with
  | nil =>
    intro db db2 log h
    unfold Crud.delFks at h
    simp only [Option.some.injEq, Except.ok.injEq, Prod.mk.injEq] at h
    obtain ⟨hdb, hlog⟩ := h
    subst hdb
    subst hlog
    refine ⟨Subdb_refl db, Batch_self db, GoneClosed_self md db, rfl,
      LogOrdered_nil md db, ?_⟩
    intro col target hmem
    exact absurd hmem (List.not_mem_nil _)
  | cons q rest ih =>
    rcases q with ⟨col0, target0⟩
    intro db db2 log h
    unfold Crud.delFks at h
    by_cases htgt : target0 = t
    · rw [if_pos htgt] at h
      cases hread : Database.read db tname [(col0, i)] with
      | error e => rw [hread] at h; exact absurd h (by simp)
      | ok rows =>
        rw [hread] at h
        unfold Crud.thenDel at h
        dsimp only at h
        cases hids : Crud.delIds rec tname db
            (rows.map (fun r => r.getD 0 JsVal.null)) with
        | none => rw [hids] at h; exact absurd h (by simp)
        | some res =>
          rw [hids] at h
          cases res with
          | error e => exact absurd h (by simp)
          | ok pr =>
            obtain ⟨dbm, log1⟩ := pr
            dsimp only at h
            cases hrest : Crud.delFks rec t i tname dbm rest with
            | none => rw [hrest] at h; exact absurd h (by simp)
            | some res2 =>
              rw [hrest] at h
              cases res2 with
              | error e => exact absurd h (by simp)
              | ok pr2 =>
                obtain ⟨db3, log2⟩ := pr2
                dsimp only at h
                simp only [Option.some.injEq, Except.ok.injEq,
                  Prod.mk.injEq] at h
                obtain ⟨hdb, hlog⟩ := h
                subst hdb
                subst hlog
                obtain ⟨S1, B1, G1, R1, L1, K1⟩ := delIds_full md rec hr
                  tname (rows.map (fun r => r.getD 0 JsVal.null))
                  db dbm log1 hids
                obtain ⟨S2, B2, G2, R2, L2, C2⟩ := ih dbm db3 log2 hrest
                have Scomp : Subdb db3 db := Subdb_trans S2 S1
                refine ⟨Scomp, Batch_trans B1 S2 B2,
                  GoneClosed_trans S2 G1 G2, ?_, ?_, ?_⟩
                · rw [replay_append, ← R1]
                  exact R2
                · exact LogOrdered_append L1 R1.symm L2
                · intro col target hmem htgteq tb2 htb2 row hrow hm
                  rcases List.mem_cons.mp hmem with hhd | htl
                  · have hcol : col = col0 := congrArg Prod.fst hhd
                    subst hcol
                    have hgt : ∃ tbl,
                        Database.getTable db tname = some tbl ∧
                        rows = RowsStore.find tbl [(col, i)] := by
                      unfold Database.read at hread
                      cases hgt0 : Database.getTable db tname with
                      | none =>
                        rw [hgt0] at hread
                        exact absurd hread (by simp)
                      | some tbl =>
                        rw [hgt0] at hread
                        exact ⟨tbl, rfl, (Except.ok.inj hread).symm⟩
                    obtain ⟨tbl, htbl, hrows⟩ := hgt
                    obtain ⟨tblX, htblX, hcols, hsub⟩ := Scomp tname tb2 htb2
                    have htX : tblX = tbl := by
                      rw [htblX] at htbl
                      exact Option.some.inj htbl
                    subst htX
                    have hmem0 : row ∈ RowsStore.find tblX [(col, i)] := by
                      unfold RowsStore.find
                      refine List.mem_filter.mpr ⟨hsub row hrow, ?_⟩
                      rw [← hcols]
                      exact hm
                    have hidmem : row.getD 0 JsVal.null
                        ∈ rows.map (fun r => r.getD 0 JsVal.null) := by
                      rw [hrows]
                      exact List.mem_map_of_mem _ hmem0
                    have hdead := K1 _ hidmem
                    have hlive3 : liveRow db3 (normTbl tname)
                        (row.getD 0 JsVal.null) := by
                      refine ⟨tb2, ?_, row, hrow, rfl⟩
                      rw [getTable_norm]
                      exact htb2
                    exact hdead
                      (liveRow_mono S2 (normTbl tname) _ hlive3)
                  · exact C2 col target htl htgteq tb2 htb2 row hrow hm
    · rw [if_neg htgt] at h
      obtain ⟨S, B, G, R, L, C⟩ := ih db db2 log h
      refine ⟨S, B, G, R, L, ?_⟩
      intro col target hmem htgteq tb2 htb2 row hrow hm
      rcases List.mem_cons.mp hmem with hhd | htl
      · have he : target = target0 := congrArg Prod.snd hhd
        have h0 : target0 = t := by
          rw [← he]
          exact htgteq
        exact htgt h0
      · exact C col target htl htgteq tb2 htb2 row hrow hm

/-- Full invariant bundle for the metadata loop: additionally, for every
processed table whose metadata declares a foreign key targeting the
deleted table, no live row still matches the `{col: id}` filter. -/
theorem delTables_full (md : Metadata)
    (rec : Database → String → JsVal → Crud.DelRes) (hr : RecFull md rec)
    (t : String) (i : JsVal) :
    ∀ (entries : List (String × Meta)) (db db2 : Database)
      (log : Crud.Log),
      Crud.delTables rec t i db entries = some (Except.ok (db2, log)) →
      Subdb db2 db ∧ Batch db2 db ∧ GoneClosed md db db2 ∧
        db2 = replay db log ∧ LogOrdered md db log ∧
        ∀ tname meta, (tname, meta) ∈ entries →
          ∀ col target, (col, target) ∈ meta.foreignKeys → target = t →
            ∀ tb2, Database.getTable db2 tname = some tb2 →
              ∀ row ∈ tb2.data,
                ¬ RowsStore.matchesFilter tb2.columns [(col, i)] row
                  = true := by
  intro entries
  induction entries with
  | nil =>
    intro db db2 log h
    unfold Crud.delTables at h
    simp only [Option.some.injEq, Except.ok.injEq, Prod.mk.injEq] at h
    obtain ⟨hdb, hlog⟩ := h
    subst hdb
    subst hlog
    refine ⟨Subdb_refl db, Batch_self db, GoneClosed_self md db, rfl,
      LogOrdered_nil md db, ?_⟩
    intro tname meta hmem
    exact absurd hmem (List.not_mem_nil _)
  | cons q rest ih =>
    rcases q with ⟨tname0, meta0⟩
    intro db db2 log h
    unfold Crud.delTables at h
    unfold Crud.thenDel at h
    cases hfks : Crud.delFks rec t i tname0 db meta0.foreignKeys with
    | none => rw [hfks] at h; exact absurd h (by simp)
    | some res =>
      rw [hfks] at h
      cases res with
      | error e => exact absurd h (by simp)
      | ok pr =>
        obtain ⟨dbm, log1⟩ := pr
        dsimp only at h
        cases hrest : Crud.delTables rec t i dbm rest with
        | none => rw [hrest] at h; exact absurd h (by simp)
        | some res2 =>
          rw [hrest] at h
          cases res2 with
          | error e => exact absurd h (by simp)
          | ok pr2 =>
            obtain ⟨db3, log2⟩ := pr2
            dsimp only at h
            simp only [Option.some.injEq, Except.ok.injEq,
              Prod.mk.injEq] at h
            obtain ⟨hdb, hlog⟩ := h
            subst hdb
            subst hlog
            obtain ⟨S1, B1, G1, R1, L1, C1⟩ := delFks_full md rec hr t i
              tname0 meta0.foreignKeys db dbm log1 hfks
            obtain ⟨S2, B2, G2, R2, L2, C2⟩ := ih dbm db3 log2 hrest
            refine ⟨Subdb_trans S2 S1, Batch_trans B1 S2 B2,
              GoneClosed_trans S2 G1 G2, ?_, ?_, ?_⟩
            · rw [replay_append, ← R1]
              exact R2
            · exact LogOrdered_append L1 R1.symm L2
            · intro tname meta hmem col target hcol htgteq tb2 htb2
                row hrow hm
              rcases List.mem_cons.mp hmem with hhd | htl
              · have hmn : tname = tname0 := congrArg Prod.fst hhd
                have hme : meta = meta0 := congrArg Prod.snd hhd
                subst hmn
                subst hme
                exact matchFree_mono S2 tname col i
                  (C1 col target hcol htgteq) tb2 htb2 row hrow hm
              · exact C2 tname meta htl col target hcol htgteq
                  tb2 htb2 row hrow hm

/-- `Crud.delete` at any fuel satisfies the full cascade invariant
bundle. -/
theorem deleteF_full (md : Metadata) :
    ∀ (n : Nat), RecFull md (Crud.deleteF md n) := by
  intro n
  induction n with
  | zero =>
    intro db t i db2 log h
    exact absurd h (by simp [Crud.deleteF])
  | succ k ih =>
    intro db t i db2 log h
    unfold Crud.deleteF at h
    dsimp only at h
    unfold Crud.thenDel at h
    cases htabs : Crud.delTables (Crud.deleteF md k) (normTbl t) i db md with
    | none => rw [htabs] at h; exact absurd h (by simp)
    | some res =>
      rw [htabs] at h
      cases res with
      | error e => exact absurd h (by simp)
      | ok pr =>
        obtain ⟨dbm, log1⟩ := pr
        dsimp only at h
        cases hdel : Database.delete dbm (normTbl t) i with
        | mk r dbf =>
          rw [hdel] at h
          cases r with
          | error e => exact absurd h (by simp)
          | ok u =>
            dsimp only at h
            simp only [Option.some.injEq, Except.ok.injEq,
              Prod.mk.injEq] at h
            obtain ⟨hdb, hlog⟩ := h
            subst hdb
            subst hlog
            obtain ⟨S1, B1, G1, R1, L1, C1⟩ := delTables_full md
              (Crud.deleteF md k) ih (normTbl t) i md db dbm log1 htabs
            have hP4 : ∀ c : String × JsVal, liveRow dbm c.1 c.2 →
                ¬ dependsOn md dbm c (normTbl t, i) := by
              intro c hc hedge
              obtain ⟨meta, hlk, col, hcol, tbc, htbc, rowc, hrowc, _,
                hmatch⟩ := hedge
              exact C1 c.1 meta (mem_of_lookup md c.1 meta hlk) col
                (normTbl t) hcol rfl tbc htbc rowc hrowc hmatch
            have hSdel : Subdb dbf dbm := by
              have hsh := dbDelete_shrinks dbm (normTbl t) i
              rw [hdel] at hsh
              exact hsh
            have hBdel : Batch dbf dbm := by
              have hb := dbDelete_batch dbm (normTbl t) i
              rw [hdel] at hb
              exact hb
            have hKill : ¬ liveRow dbf (normTbl t) i :=
              dbDelete_kills dbm (normTbl t) i u dbf hdel
            have hP6 : ∀ c : String × JsVal, liveRow dbf c.1 c.2 →
                ¬ dependsOn md dbf c (normTbl t, i) := by
              intro c hc hedge
              exact hP4 c (liveRow_mono hSdel c.1 c.2 hc)
                (dependsOn_mono md hSdel c (normTbl t, i) hedge)
            have hGdel : GoneClosed md dbm dbf := by
              intro p
              rcases p with ⟨p1, p2⟩
              intro hn hlive hdead c hc hedge
              have hri := dbDelete_removed dbm (normTbl t) i p1 p2 hn
                hlive (by rw [hdel]; exact hdead)
              have hp1 : p1 = normTbl t := hri.1.trans (normTbl_idem t)
              have hp2 : p2 = i := hri.2
              subst hp1
              subst hp2
              exact hP6 c hc hedge
            refine ⟨Subdb_trans hSdel S1, Batch_trans B1 hSdel hBdel,
              GoneClosed_trans hSdel G1 hGdel, ?_, ?_, hKill, hP6⟩
            · rw [replay_append, ← R1]
              show dbf = (Database.delete dbm (normTbl t) i).2
              rw [hdel]
            · exact LogOrdered_append L1 R1.symm
                (LogOrdered_single md dbm (normTbl t, i) hP4)

/-- A completed cascade delete removes the root and every pair in the
declared-dependency closure of the root, as evaluated against the
pre-state. -/
theorem deleteF_complete (md : Metadata)
    (hmd : ∀ p ∈ md, normTbl p.1 = p.1) (n : Nat) (db : Database)
    (t : String) (i : JsVal) (db2 : Database) (log : Crud.Log)
    (h : Crud.deleteF md n db t i = some (Except.ok (db2, log))) :
    ∀ tb rid, normTbl tb = tb →
      Relation.ReflTransGen (dependsOn md db) (tb, rid) (normTbl t, i) →
      ¬ liveRow db2 tb rid := by
  obtain ⟨S, B, G, _, _, P3, P6⟩ := deleteF_full md n db t i db2 log h
  have main : ∀ (a : String × JsVal),
      Relation.ReflTransGen (dependsOn md db) a (normTbl t, i) →
      normTbl a.1 = a.1 → ¬ liveRow db2 a.1 a.2 := by
    intro a ha
    induction ha using Relation.ReflTransGen.head_induction_on with
    | refl =>
      intro _ hlive
      exact P3 hlive
    | @head x c hedge hcb IH =>
      intro hnx hlivex
      obtain ⟨meta, hlk, col, hcol, tbA, htbA, row0, hrow0, hid0,
        hmatch⟩ := hedge
      obtain ⟨tbA2, htbA2, row', hrow', hid'⟩ := hlivex
      obtain ⟨tbX, htbX, hcols2, hsub2⟩ := S x.1 tbA2 htbA2
      have htbXA : tbX = tbA := by
        rw [htbX] at htbA
        exact Option.some.inj htbA
      subst htbXA
      have hrow0in : row0 ∈ tbA2.data := by
        by_contra hno
        exact B x.1 tbX tbA2 htbX htbA2 row0 hrow0 hno row'
          (hsub2 row' hrow') (hid'.trans hid0.symm) hrow'
      have hedge2 : dependsOn md db2 x c :=
        ⟨meta, hlk, col, hcol, tbA2, htbA2, row0, hrow0in, hid0, by
          rw [hcols2]
          exact hmatch⟩
      rcases Relation.ReflTransGen.cases_head hcb with hceq | ⟨d, hcd, _⟩
      · subst hceq
        exact P6 x ⟨tbA2, htbA2, row', hrow', hid'⟩ hedge2
      · have hlivec : liveRow db c.1 c.2 := by
          obtain ⟨metaC, hlkC, colC, _, tbC, htbC, rowC, hrowC, hidC, _⟩ :=
            hcd
          exact ⟨tbC, htbC, rowC, hrowC, hidC⟩
        have hnc : normTbl c.1 = c.1 := by
          obtain ⟨metaC, hlkC, _⟩ := hcd
          exact hmd (c.1, metaC) (mem_of_lookup md c.1 metaC hlkC)
        by_cases hc2 : liveRow db2 c.1 c.2
        · exact IH hnc hc2
        · exact G c hnc hlivec hc2 x ⟨tbA2, htbA2, row', hrow', hid'⟩
            hedge2
  intro tb rid hn hchain
  exact main (tb, rid) hchain hn

/-- C3: a completed cascade delete removes exactly the deleted root and
the rows transitively dependent on it through the declared foreign-key
columns — every removed row lies in the dependency closure of the root
(soundness) and every row of the closure is removed (completeness) — it
deletes dependents before the rows they reference (the final state is
the replay of the deletion log, and each logged deletion executes only
when no live row still references it), and it logs the root row's own
deletion last; on the Players/Games scenario it removes exactly the two
Games rows referencing player 5 and then the Players row, leaving the
third Games row and the other player in place. -/
theorem c3_cascade_delete_dependents_only :
    (∀ (md : Metadata) (n : Nat) (db : Database) (t : String) (i : JsVal)
        (db2 : Database) (log : Crud.Log),
        (∀ p ∈ md, normTbl p.1 = p.1) →
        (md.map Prod.fst).Nodup →
        Crud.deleteF md n db t i = some (Except.ok (db2, log)) →
        Subdb db2 db ∧
          (∀ tb rid, normTbl tb = tb → liveRow db tb rid →
              ¬ liveRow db2 tb rid →
              Relation.ReflTransGen (dependsOn md db) (tb, rid)
                (normTbl t, i)) ∧
          (∀ tb rid, normTbl tb = tb →
              Relation.ReflTransGen (dependsOn md db) (tb, rid)
                (normTbl t, i) →
              ¬ liveRow db2 tb rid) ∧
          db2 = replay db log ∧
          LogOrdered md db log ∧
          ∃ log1, log = log1 ++ [(normTbl t, i)]) ∧
    Crud.deleteF mdPG 10 dbPG "tblPlayers" (JsVal.int 5) =
      some (Except.ok (dbPGafter,
        [("tblGames", JsVal.int 1), ("tblGames", JsVal.int 2),
         ("tblPlayers", JsVal.int 5)])) := by
  refine ⟨?_, rfl⟩
  intro md n db t i db2 log hnorm hnodup h
  have hs := deleteF_sound md hnorm hnodup n db t i db2 log h
  obtain ⟨_, _, _, R, L, _, _⟩ := deleteF_full md n db t i db2 log h
  exact ⟨hs.1, hs.2, deleteF_complete md hnorm n db t i db2 log h, R, L,
    deleteF_root_last md n db t i db2 log h⟩

/-- The general half of the cascade theorem applied to the concrete
Players/Games scenario: the post-state is a sub-collection of the
pre-state reached by replaying the log, and the root's entry is last. -/
theorem c3_cascade_delete_dependents_only_witness :
    Subdb dbPGafter dbPG ∧
      dbPGafter = replay dbPG
        [("tblGames", JsVal.int 1), ("tblGames", JsVal.int 2),
         ("tblPlayers", JsVal.int 5)] ∧
      ∃ log1,
        ([("tblGames", JsVal.int 1), ("tblGames", JsVal.int 2),
          ("tblPlayers", JsVal.int 5)] : Crud.Log) =
          log1 ++ [(normTbl "tblPlayers", JsVal.int 5)] := by
  have h := c3_cascade_delete_dependents_only.1 mdPG 10 dbPG "tblPlayers"
    (JsVal.int 5) dbPGafter
    [("tblGames", JsVal.int 1), ("tblGames", JsVal.int 2),
     ("tblPlayers", JsVal.int 5)]
    (by decide) (by decide) c3_cascade_delete_dependents_only.2
  exact ⟨h.1, h.2.2.2.1, h.2.2.2.2.2⟩
